import Mathlib

/-!
Shallow embedding of `fail_recover_graph.py`: a Markov fail-recovery state
graph with exact and asymptotic mean-time-to-first-failure computations.

Symbolic rates (sympy expressions in the source) are modelled semantically as
elements of an arbitrary field `F` with decidable equality; two symbolic
rational expressions are equal exactly when they are equal as field elements
under every valuation, so field equality is the faithful interpretation of
sympy's simplified-expression equality.  The symbolic engine's
division-by-an-identically-zero-denominator condition (a fatal degenerate
solve in the spec's error model) is modelled by `Option`: `none` is an
aborted computation, `some x` a returned expression.  State ids (arbitrary
hashable, totally ordered values in the source) are a linearly ordered type
`α`.  Python `assert` failures, `KeyError`s and attribute errors on `None`
all abort the program and are modelled as `none` results.
-/

set_option maxRecDepth 8000
set_option linter.unusedSectionVars false
set_option linter.unusedVariables false

namespace FailRecover

variable {α F : Type} [LinearOrder α] [Field F] [DecidableEq F]

/-- Graph edge corresponding to a state transition: `Transition = namedtuple('Transition', ('target', 'rate', 'label'))`. -/
structure Transition (α F : Type) where
  target : α
  rate : F
  label : String
  deriving DecidableEq

/-- Create a fault transition (`fault(target, rate, label=None)` with the default label). -/
def fault (target : α) (rate : F) : Transition α F :=
  ⟨target, rate, "fault"⟩

/-- Create a recovery transition (`recover(target, rate, label=None)` with the default label). -/
def recover (target : α) (rate : F) : Transition α F :=
  ⟨target, rate, "recover"⟩

/-- State graph node: `State = namedtuple('State', ('id', 'faults', 'recovers'))`. -/
structure State (α F : Type) where
  id : α
  faults : List (Transition α F)
  recovers : List (Transition α F)
  deriving DecidableEq

/-- Graph representing Markov process states and transitions.  `nodes` is the
Python dict `id -> State` as an association list (insertion order, unique
keys maintained by `add_state`); `term_nodes` is the terminal-id set as a
list (membership is all that is ever used); `root` is `None` until a root
state is added. -/
structure StateGraph (α F : Type) where
  root : Option (State α F)
  nodes : List (α × State α F)
  term_nodes : List α

/-- The empty graph built by `StateGraph.__init__`. -/
def emptyGraph : StateGraph α F :=
  ⟨none, [], []⟩

/-- Dict insertion `self.nodes[id] = n`: replace the binding if the key is
present, otherwise append. -/
def insertNode (ns : List (α × State α F)) (id : α) (s : State α F) :
    List (α × State α F) :=
  if ns.any (fun p => p.1 = id) then
    ns.map (fun p => if p.1 = id then (id, s) else p)
  else
    ns ++ [(id, s)]

/-- The list of internal node ids (the Python dict's key set). -/
def nodeIds (g : StateGraph α F) : List α :=
  g.nodes.map Prod.fst

/-- `add_state(id, faults, recovers, is_root)`: insert a node; when `is_root`
is set, assert that no root exists yet and that `recovers` is empty (a failed
assertion aborts: `none`). -/
def add_state (g : StateGraph α F) (id : α) (faults recovers : List (Transition α F))
    (is_root : Bool) : Option (StateGraph α F) :=
  let n : State α F := ⟨id, faults, recovers⟩
  let g' : StateGraph α F := ⟨g.root, insertNode g.nodes id n, g.term_nodes⟩
  if is_root then
    match g.root with
    | some _ => none
    | none => if recovers.isEmpty then some ⟨some n, g'.nodes, g'.term_nodes⟩ else none
  else
    some g'

/-- `add_term_state(id)`: assert `id not in self.nodes`, then add `id` to the
terminal set. -/
def add_term_state (g : StateGraph α F) (id : α) : Option (StateGraph α F) :=
  if g.nodes.any (fun p => p.1 = id) then none
  else some ⟨g.root, g.nodes, g.term_nodes ++ [id]⟩

/-- `get_states()`: root first, then the remaining nodes sorted by increasing
id (Python sorts the `State` namedtuples, which compares ids first; ids are
unique dict keys, and the root is removed from the sorted tail by identity,
which for a graph whose root is stored under its own id is removal by id).
Called with no root it asserts; that abort surfaces in the analyses that call
it, which return `none` when `root` is absent. -/
def getStates (g : StateGraph α F) : List (State α F) :=
  match g.root with
  | none => []
  | some rt =>
    let sorted := (g.nodes.map Prod.snd).insertionSort (fun a b => a.id ≤ b.id)
    rt :: sorted.filter (fun n => n.id ≠ rt.id)

/-- The writes performed into row `i` of the transition intensity matrix for
state `s`, in program order: one write per fault transition whose target is
internal (`x.target not in self.term_nodes`), then one write per recovery
transition, each keyed by the target id (the column) and carrying the rate. -/
def rowWrites (g : StateGraph α F) (s : State α F) : List (α × F) :=
  (s.faults.filter (fun t => t.target ∉ g.term_nodes)).map (fun t => (t.target, t.rate))
    ++ s.recovers.map (fun t => (t.target, t.rate))

/-- The running `total` accumulated for a row: the sum of all fault and
recovery rates leaving the state. -/
def rowTotal (s : State α F) : F :=
  ((s.faults ++ s.recovers).map Transition.rate).sum

/-- Apply a list of keyed writes left to right to a zero-initialised row;
a later write to the same key overwrites an earlier one, exactly like the
repeated `M[i, j] = x.rate` assignments. -/
def writeAll (f : α → F) (ws : List (α × F)) : α → F :=
  ws.foldl (fun g w => Function.update g w.1 w.2) f

/-- Row `i` of the matrix as a function from column id to entry: the keyed
writes applied to the zero row, then the diagonal entry (key = the state's
own id) set to the negated total, which happens last in the source
(`M[i,i] = -total`). -/
def rowFun (g : StateGraph α F) (s : State α F) : α → F :=
  Function.update (writeAll (fun _ => 0) (rowWrites g s)) s.id (-(rowTotal s))

/-- `transition_intensity_matrix()`: the square matrix over the internal
states in `get_states()` order; entry `(i, j)` is row `i`'s value at the id
of state `j`. -/
def transition_intensity_matrix (g : StateGraph α F) :
    Matrix (Fin (getStates g).length) (Fin (getStates g).length) F :=
  Matrix.of fun i j => rowFun g ((getStates g).get i) (((getStates g).get j).id)

/-- `mttff_exact()`: with `M` the transition intensity matrix, `D = det M`,
and `D1` the determinant of `M` with column 0 overwritten by ones, return the
simplified `-D1/D`.  Division by an identically zero `D` is the degenerate
solve the spec treats as fatal, modelled as `none`; `factor` preserves the
value of the expression and so is the identity in this semantic model. -/
def mttff_exact (g : StateGraph α F) : Option F :=
  if h : 0 < (getStates g).length then
    let M := transition_intensity_matrix g
    if M.det = 0 then none
    else some (-(M.updateColumn ⟨0, h⟩ (fun _ => 1)).det / M.det)
  else none

/-- The two-state mirrored-disk example graph from `__main__`:
root `0` with `fault(1, 2e)`, state `1` with `fault(2, e)` and
`recover(0, r)`, terminal `2`. -/
def mirroredGraph (e r : F) : StateGraph ℕ F :=
  ⟨some ⟨0, [fault 1 (2 * e)], []⟩,
   [(0, ⟨0, [fault 1 (2 * e)], []⟩), (1, ⟨1, [fault 2 e], [recover 0 r]⟩)],
   [2]⟩

/-- Association-list lookup by key, the semantic content of a Python dict
read (`d[k]`, `None` when the key is absent, i.e. a `KeyError`). -/
def alookup {β γ : Type} [DecidableEq β] (l : List (β × γ)) (k : β) : Option γ :=
  (l.find? (fun p => p.1 = k)).map Prod.snd

/-- Lookup of an internal node by id (`self.nodes[id]`). -/
def lookupNode (g : StateGraph α F) (id : α) : Option (State α F) :=
  alookup g.nodes id

/-- `find_node(id)`: `None` for a terminal id, the node for an internal id,
`KeyError` (outer `none`) when the id is in neither space. -/
def find_node (g : StateGraph α F) (id : α) : Option (Option (State α F)) :=
  if id ∈ g.term_nodes then some none
  else
    match lookupNode g id with
    | some s => some (some s)
    | none => none

/-- Fuel bound for the BFS loop: the number of queue insertions is one (the
root) plus at most one batch of children per distinct visited internal state,
so the total fault-list length over the graph plus slack suffices. -/
def bfsFuel (g : StateGraph α F) : ℕ :=
  2 + g.nodes.length +
    (match g.root with
     | some rt => rt.faults.length
     | none => 0) +
    (g.nodes.map (fun p => p.2.faults.length)).sum

/-- The children appended to the `discovered` queue when an internal node is
expanded: `(find_node(t.target), lvl + 1)` for each fault transition, in
list order; a `KeyError` in `find_node` aborts. -/
def childrenOf (g : StateGraph α F) (lvl : ℕ) :
    List (Transition α F) → Option (List (Option (State α F) × ℕ))
  | [] => some []
  | t :: ts =>
    match find_node g t.target with
    | none => none
    | some m =>
      match childrenOf g lvl ts with
      | none => none
      | some cs => some ((m, lvl + 1) :: cs)

/-- One `visit_nodes` BFS loop: pop `(n, lvl)` from the `discovered` queue;
skip if the id (the node's id, or the terminal sentinel `none`) was visited;
otherwise record the visit (the `cb(n, lvl)` call) and append the children
of an internal node's fault transitions.  Returns the visit trace and the
final visited set, or `none` on a `find_node` `KeyError` (or fuel
exhaustion, which a sufficiently large fuel never triggers). -/
def visitAux (g : StateGraph α F) :
    ℕ → List (Option (State α F) × ℕ) → List (Option α) →
      Option (List (Option (State α F) × ℕ) × List (Option α))
  | 0, _, _ => none
  | _ + 1, [], visited => some ([], visited)
  | fuel + 1, (n, lvl) :: rest, visited =>
    let oid : Option α := n.map State.id
    if oid ∈ visited then visitAux g fuel rest visited
    else
      match n with
      | none =>
        (visitAux g fuel rest (oid :: visited)).map
          (fun r => ((none, lvl) :: r.1, r.2))
      | some s =>
        match childrenOf g lvl s.faults with
        | none => none
        | some children =>
          (visitAux g fuel (rest ++ children) (oid :: visited)).map
            (fun r => ((some s, lvl) :: r.1, r.2))

/-- `visit_nodes(cb)`: BFS from the root along fault edges (the root slot
itself when no root was set, which Python treats as the terminal marker
`None`), then assert that the visited set equals the node-id set plus the
terminal sentinel.  Returns the ordered trace of `cb` invocations. -/
def visit_nodes (g : StateGraph α F) : Option (List (Option (State α F) × ℕ)) :=
  match visitAux g (bfsFuel g) [(g.root, 0)] [] with
  | none => none
  | some (tr, visited) =>
    let ids : List (Option α) := g.nodes.map (fun p => some p.1) ++ [none]
    if visited.all (· ∈ ids) ∧ ids.all (· ∈ visited) then some tr else none

/-- `fault_level_map()`: the id-to-level map collected by the BFS visitor,
as an association list in visit order (each id is visited once, so keys are
unique); terminal states appear as the single sentinel key `none`. -/
def fault_level_map (g : StateGraph α F) : Option (List (Option α × ℕ)) :=
  (visit_nodes g).map (fun tr => tr.map (fun p => (p.1.map State.id, p.2)))

/-- The level-map key under which a transition target is looked up by
`is_fault_minor`: the terminal sentinel for a terminal id, else the id. -/
def classify (g : StateGraph α F) (id : α) : Option α :=
  if id ∈ g.term_nodes then none else some id

/-- `is_fault_minor(lvl, t)`: look up the target's level (terminal ids via
the sentinel); minor iff `tlvl <= lvl`; otherwise assert `tlvl == lvl + 1`
(violation aborts) and classify as major. -/
def is_fault_minor (g : StateGraph α F) (lm : List (Option α × ℕ)) (lvl : ℕ)
    (t : Transition α F) : Option Bool :=
  match alookup lm (classify g t.target) with
  | none => none
  | some tlvl =>
    if tlvl ≤ lvl then some true
    else if tlvl = lvl + 1 then some false
    else none

/-- `is_recovery_minor(lvl, t)`: look up the target's level under its raw id
(a terminal target raises `KeyError`), assert `tlvl <= lvl`, and classify as
minor iff `tlvl < lvl`. -/
def is_recovery_minor (g : StateGraph α F) (lm : List (Option α × ℕ)) (lvl : ℕ)
    (t : Transition α F) : Option Bool :=
  match alookup lm (some t.target) with
  | none => none
  | some tlvl => if tlvl ≤ lvl then some (decide (tlvl < lvl)) else none

/-- One transition list of `degree_counter`: skip minor transitions,
increment `inc_degree[t.target]` for major ones, abort on a classification
assertion failure.  The `defaultdict(int)` in-degree map is a total function
with default 0. -/
def countEdges (minor : Transition α F → Option Bool) :
    List (Transition α F) → (α → ℤ) → Option (α → ℤ)
  | [], deg => some deg
  | t :: ts, deg =>
    match minor t with
    | none => none
    | some true => countEdges minor ts deg
    | some false => countEdges minor ts (Function.update deg t.target (deg t.target + 1))

/-- `degree_counter` folded over the BFS visit trace: for every visited
internal node, count its major fault and recovery transitions into the
in-degree map. -/
def degree_counter (g : StateGraph α F) (lm : List (Option α × ℕ)) :
    List (Option (State α F) × ℕ) → (α → ℤ) → Option (α → ℤ)
  | [], deg => some deg
  | (none, _) :: tr, deg => degree_counter g lm tr deg
  | (some s, lvl) :: tr, deg =>
    match countEdges (is_fault_minor g lm lvl) s.faults deg with
    | none => none
    | some deg1 =>
      match countEdges (is_recovery_minor g lm lvl) s.recovers deg1 with
      | none => none
      | some deg2 => degree_counter g lm tr deg2

/-- An observable event of `visit_major_edges`: a node dequeued from the
topological queue, or a callback invocation `cb(target, n, t)` (`target` is
`none` for a terminal transition). -/
inductive MEvent (α F : Type) where
  | pop (s : State α F)
  | call (target : Option (State α F)) (src : State α F) (t : Transition α F)
  deriving DecidableEq

/-- `visit_transition(n, t)`: resolve the target (`KeyError` aborts), invoke
the callback, and for an internal target decrement its in-degree, reporting
the target for enqueueing when the count reaches zero. -/
def visitTransition (g : StateGraph α F) (deg : α → ℤ) (src : State α F)
    (t : Transition α F) :
    Option (MEvent α F × (α → ℤ) × Option (State α F)) :=
  match find_node g t.target with
  | none => none
  | some none => some (MEvent.call none src t, deg, none)
  | some (some s) =>
    let d := deg t.target - 1
    some (MEvent.call (some s) src t, Function.update deg t.target d,
      if d = 0 then some s else none)

/-- Process one transition list of a dequeued node: skip minor transitions
and run `visit_transition` on major ones, collecting the call events, the
updated degrees, and the nodes to enqueue in order. -/
def processEdges (g : StateGraph α F) (src : State α F)
    (minor : Transition α F → Option Bool) :
    List (Transition α F) → (α → ℤ) →
      Option (List (MEvent α F) × (α → ℤ) × List (State α F))
  | [], deg => some ([], deg, [])
  | t :: ts, deg =>
    match minor t with
    | none => none
    | some true => processEdges g src minor ts deg
    | some false =>
      match visitTransition g deg src t with
      | none => none
      | some (ev, deg1, enq) =>
        match processEdges g src minor ts deg1 with
        | none => none
        | some (evs, deg2, enqs) => some (ev :: evs, deg2, enq.toList ++ enqs)

/-- Fuel bound for the topological loop: every enqueue is the initial root or
follows a decrement along an edge, so the total edge count plus slack bounds
the number of dequeues. -/
def kahnFuel (g : StateGraph α F) : ℕ :=
  2 + g.nodes.length +
    (g.nodes.map (fun p => p.2.faults.length + p.2.recovers.length)).sum +
    (match g.root with
     | some rt => rt.faults.length + rt.recovers.length
     | none => 0)

/-- The main loop of `visit_major_edges`: dequeue a node, look up its level
(`KeyError` aborts), process its major fault transitions then its major
recovery transitions, and append the newly ready nodes to the queue.
Returns the chronological event trace. -/
def kahnAux (g : StateGraph α F) (lm : List (Option α × ℕ)) :
    ℕ → List (State α F) → (α → ℤ) → Option (List (MEvent α F))
  | 0, _, _ => none
  | _ + 1, [], _ => some []
  | fuel + 1, n :: rest, deg =>
    match alookup lm (some n.id) with
    | none => none
    | some lvl =>
      match processEdges g n (is_fault_minor g lm lvl) n.faults deg with
      | none => none
      | some (evs1, deg1, enq1) =>
        match processEdges g n (is_recovery_minor g lm lvl) n.recovers deg1 with
        | none => none
        | some (evs2, deg2, enq2) =>
          match kahnAux g lm fuel (rest ++ enq1 ++ enq2) deg2 with
          | none => none
          | some evs => some (MEvent.pop n :: (evs1 ++ evs2 ++ evs))

/-- The number of dequeue events in a trace (Python's `next` counter when the
queue drains). -/
def popCount (evs : List (MEvent α F)) : ℕ :=
  evs.countP (fun e =>
    match e with
    | MEvent.pop _ => true
    | MEvent.call _ _ _ => false)

/-- `visit_major_edges(cb)`: compute the level map, count major-edge
in-degrees over a node traversal, assert the root's in-degree is zero, run
the topological loop from the root, and assert that the number of dequeued
nodes equals the number of internal nodes.  Any assertion or lookup failure
aborts (`none`). -/
def visit_major_edges (g : StateGraph α F) : Option (List (MEvent α F)) :=
  match g.root with
  | none => none
  | some rt =>
    match visit_nodes g with
    | none => none
    | some tr =>
      let lm := tr.map (fun p => (p.1.map State.id, p.2))
      match degree_counter g lm tr (fun _ => 0) with
      | none => none
      | some deg =>
        if deg rt.id = 0 then
          match kahnAux g lm (kahnFuel g) [rt] deg with
          | none => none
          | some evs =>
            if popCount evs = g.nodes.length then some evs else none
        else none

/-- The `recovery_rate` accumulated in the asymptotic visitor: the sum of the
rates of a state's recovery transitions. -/
def sumRecovers (s : State α F) : F :=
  (s.recovers.map Transition.rate).sum

/-- The asymptotic visitor folded over the event trace: dequeues are not
callback invocations and are skipped; a call with terminal target adds
`population[src] * rate` to `term_rate`; a call with internal target `n`
adds `population[src] * rate / recovery_rate(n)` to `population[n]`,
aborting when the recovery rate is identically zero (the degenerate division
the spec treats as fatal). -/
def propagate : List (MEvent α F) → (α → F) → F → Option ((α → F) × F)
  | [], pop, term => some (pop, term)
  | MEvent.pop _ :: evs, pop, term => propagate evs pop term
  | MEvent.call none src t :: evs, pop, term =>
    propagate evs pop (term + pop src.id * t.rate)
  | MEvent.call (some n) src t :: evs, pop, term =>
    let rr := sumRecovers n
    if rr = 0 then none
    else propagate evs (Function.update pop n.id (pop n.id + pop src.id * t.rate / rr)) term

/-- `mttff_asymptotic()`: initialise the population map to 1 at the root,
fold the visitor over the major-edge traversal, and return the simplified
`1 / term_rate`, aborting when `term_rate` is identically zero (degenerate
division, fatal per the spec's error model). -/
def mttff_asymptotic (g : StateGraph α F) : Option F :=
  match g.root with
  | none => none
  | some rt =>
    match visit_major_edges g with
    | none => none
    | some evs =>
      match propagate evs (Function.update (fun _ => 0) rt.id 1) 0 with
      | none => none
      | some r => if r.2 = 0 then none else some (1 / r.2)

/-- A small graph whose root has two fault transitions to the same internal
target, used to exhibit the last-write-wins behaviour of the matrix
builder. -/
def dupGraph : StateGraph ℕ ℚ :=
  ⟨some ⟨0, [fault 1 2, fault 1 3], []⟩,
   [(0, ⟨0, [fault 1 2, fault 1 3], []⟩), (1, ⟨1, [], []⟩)],
   []⟩

/-- A one-state graph with no transitions: its 1×1 intensity matrix is `[[0]]`
with determinant identically zero. -/
def noFaultGraph : StateGraph ℕ ℚ :=
  ⟨some ⟨0, [], []⟩, [(0, ⟨0, [], []⟩)], []⟩

/-- A graph whose internal state 1 has no recovery transitions: the
asymptotic visitor divides by an identically zero recovery rate there. -/
def noRecoverGraph : StateGraph ℕ ℚ :=
  ⟨some ⟨0, [fault 1 1], []⟩,
   [(0, ⟨0, [fault 1 1], []⟩), (1, ⟨1, [fault 2 1], []⟩)],
   [2]⟩

/-- A graph whose only terminal transition has rate identically zero: the
accumulated `term_rate` is identically zero. -/
def zeroTermGraph : StateGraph ℕ ℚ :=
  ⟨some ⟨0, [fault 1 1], []⟩,
   [(0, ⟨0, [fault 1 1], []⟩), (1, ⟨1, [fault 2 0], [recover 0 1]⟩)],
   [2]⟩

/-- The call sequence refuting claim C9: add terminal id 0 to an empty graph,
then add an internal state with the same id 0.  Both calls complete without
an assertion failure because `add_state` never checks the terminal set. -/
def c9seq : Option (StateGraph ℕ ℚ) := do
  let g1 ← add_term_state (emptyGraph (α := ℕ) (F := ℚ)) 0
  add_state g1 0 [] [] false

/-- The level-map key class of a queue slot: the node's id, or the terminal
sentinel. -/
def classOf (n : Option (State α F)) : Option α :=
  n.map State.id

/-- The key/level pairs a visit trace contributes to the fault level map. -/
def lmOf (tr : List (Option (State α F) × ℕ)) : List (Option α × ℕ) :=
  tr.map (fun p => (classOf p.1, p.2))

/-- Reachability at a given depth along fault transitions from the root:
depth 0 reaches the root's id; a fault transition of an internal state
reached at depth `d` reaches its target's class (terminal targets fold to
the sentinel) at depth `d + 1`.  The shortest fault-only path length of the
spec is the least such depth. -/
inductive FaultReach (g : StateGraph α F) (rt : State α F) : Option α → ℕ → Prop where
  | root : FaultReach g rt (some rt.id) 0
  | step {a : α} {s : State α F} {d : ℕ} {t : Transition α F} :
      FaultReach g rt (some a) d → find_node g a = some (some s) → t ∈ s.faults →
      FaultReach g rt (classify g t.target) (d + 1)

/-- Queue-slot invariant of the BFS: the class is reachable at the slot's
level, and internal slots hold the very node `find_node` returns for their
id. -/
def EntryOk (g : StateGraph α F) (rt : State α F) (p : Option (State α F) × ℕ) : Prop :=
  match p.1 with
  | none => FaultReach g rt none p.2
  | some s => FaultReach g rt (some s.id) p.2 ∧ find_node g s.id = some (some s)

/-- The class sequence of a visit trace (the visited set, in visit order). -/
def VcOf (tr : List (Option (State α F) × ℕ)) : List (Option α) :=
  tr.map (fun p => classOf p.1)

/-- The dequeued nodes of a major-edge event trace, in dequeue order. -/
def popsOf (evs : List (MEvent α F)) : List (State α F) :=
  evs.filterMap (fun e =>
    match e with
    | MEvent.pop s => some s
    | MEvent.call _ _ _ => none)

/-- The callback-invocation events of a major-edge event trace, in order. -/
def callsOf (evs : List (MEvent α F)) : List (MEvent α F) :=
  evs.filter (fun e =>
    match e with
    | MEvent.pop _ => false
    | MEvent.call _ _ _ => true)

/-- The number of callback invocations in the trace whose resolved target is
internal and whose transition points at id `k` — exactly the invocations
that decrement `inc_degree[k]`. -/
def ctCalls (evs : List (MEvent α F)) (k : α) : ℕ :=
  evs.countP (fun e =>
    match e with
    | MEvent.call (some _) _ t => t.target = k
    | _ => false)

/-- The major outgoing transitions of a state at level `lvl`: the fault
transitions then the recovery transitions the classification retains. -/
def majorOut (g : StateGraph α F) (lm : List (Option α × ℕ)) (lvl : ℕ)
    (s : State α F) : List (Transition α F) :=
  s.faults.filter (fun t => is_fault_minor g lm lvl t = some false)
    ++ s.recovers.filter (fun t => is_recovery_minor g lm lvl t = some false)

/-- The callback events a dequeued state contributes: one call per major
outgoing transition, with the resolved target node (or the terminal
`none`). -/
def callsFn (g : StateGraph α F) (lm : List (Option α × ℕ)) (s : State α F) :
    List (MEvent α F) :=
  match alookup lm (some s.id) with
  | none => []
  | some lvl =>
    (majorOut g lm lvl s).map
      (fun t => MEvent.call ((find_node g t.target).join) s t)

/-- The internal states of a BFS visit trace, in visit order. -/
def statesOf (tr : List (Option (State α F) × ℕ)) : List (State α F) :=
  tr.filterMap (fun p => p.1)

/-- The number of major transitions with target id `k` counted by the
degree pass, summed over the internal visits of the trace. -/
def traceMajorCount (g : StateGraph α F) (lm : List (Option α × ℕ)) :
    List (Option (State α F) × ℕ) → α → ℕ
  | [], _ => 0
  | (none, _) :: tr, k => traceMajorCount g lm tr k
  | (some s, lvl) :: tr, k =>
    ((majorOut g lm lvl s).filter (fun t => t.target = k)).length
      + traceMajorCount g lm tr k

/-- The internal node stored under an id, with a junk default. -/
def nodeOfId (g : StateGraph α F) (k : α) : State α F :=
  (lookupNode g k).getD ⟨k, [], []⟩

def c7s0 : State ℕ ℚ := ⟨0, [fault 1 (2*1)], []⟩

def c7s1 : State ℕ ℚ := ⟨1, [fault 2 1], [recover 0 1]⟩

def c7tr : List (Option (State ℕ ℚ) × ℕ) := [(some c7s0, 0), (some c7s1, 1), (none, 2)]

def c7evs : List (MEvent ℕ ℚ) :=
  [MEvent.pop c7s0, MEvent.call (some c7s1) c7s0 (fault 1 (2*1)),
   MEvent.pop c7s1, MEvent.call none c7s1 (fault 2 1)]

theorem mirroredGraph_built (e r : F) :
    (do
      let g1 ← add_state (emptyGraph (α := ℕ)) 0 [fault 1 (2 * e)] [] true
      let g2 ← add_state g1 1 [fault 2 e] [recover 0 r] false
      add_term_state g2 2) = some (mirroredGraph e r) := rfl

theorem writeAll_append (f : α → F) (ws1 ws2 : List (α × F)) :
    writeAll f (ws1 ++ ws2) = writeAll (writeAll f ws1) ws2 := by
  simp [writeAll, List.foldl_append]

theorem writeAll_eq_of_not_mem (f : α → F) (ws : List (α × F)) (k : α)
    (h : ∀ w ∈ ws, w.1 ≠ k) : writeAll f ws k = f k := by
  induction ws generalizing f with
  | nil => rfl
  | cons w ws ih =>
    show writeAll (Function.update f w.1 w.2) ws k = f k
    rw [ih _ (fun x hx => h x (List.mem_cons_of_mem _ hx)),
      Function.update_noteq (Ne.symm (h w (List.mem_cons_self _ _)))]

theorem writeAll_eq_getLast (f : α → F) (ws : List (α × F)) (k : α)
    (h : ws.filter (fun w => w.1 = k) ≠ []) :
    writeAll f ws k = ((ws.filter (fun w => w.1 = k)).getLast h).2 := by
  induction ws using List.reverseRecOn with
  | nil => exact absurd rfl h
  | append_singleton ws w ih =>
    rw [writeAll_append]
    by_cases hw : w.1 = k
    · have hfil : (ws ++ [w]).filter (fun w => w.1 = k)
          = ws.filter (fun w => w.1 = k) ++ [w] := by
        simp [List.filter_append, hw]
      show Function.update (writeAll f ws) w.1 w.2 k = _
      rw [hw, Function.update_same]
      have := List.getLast_concat (l := ws.filter (fun w => w.1 = k)) (a := w)
      simp only [hfil]
      rw [List.getLast_concat]
    · have hfil : (ws ++ [w]).filter (fun w => w.1 = k)
          = ws.filter (fun w => w.1 = k) := by
        simp [List.filter_append, hw]
      have h' : ws.filter (fun w => w.1 = k) ≠ [] := by
        rw [← hfil]; exact h
      show Function.update (writeAll f ws) w.1 w.2 k = _
      rw [Function.update_noteq (Ne.symm hw)]
      rw [ih h']
      congr 1
      apply List.getLast_congr
      exact hfil.symm

theorem mirrored_tim (e r : F) : transition_intensity_matrix (mirroredGraph e r) =
    Matrix.of ![![-(2 * e), 2 * e], ![r, -(e + r)]] := by
  funext i j
  fin_cases i <;> fin_cases j <;>
    simp [transition_intensity_matrix, rowFun, rowTotal, rowWrites, writeAll,
      mirroredGraph, getStates, fault, recover, Function.update]

/-- Claim C1: for the concrete two-state mirrored-disk graph (root 0 with
`fault(1, 2e)`; state 1 with `fault(2, e)` and `recover(0, r)`; terminal 2),
`mttff_exact()` returns the symbolic expression `(r + 3e) / (2e^2)`.  The
nondegeneracy hypothesis `2e^2 ≠ 0` says the determinant denominator is not
identically zero, which is exactly when the source's division is defined. -/
theorem claim_C1_mttff_exact_mirrored (e r : F) (h : 2 * e ^ 2 ≠ 0) :
    mttff_exact (mirroredGraph e r) = some ((r + 3 * e) / (2 * e ^ 2)) := by
  have hlen : 0 < (getStates (mirroredGraph e r)).length := Nat.zero_lt_two
  have hdet : (transition_intensity_matrix (mirroredGraph e r)).det = 2 * e ^ 2 := by
    rw [mirrored_tim]
    rw [show (Matrix.of ![![-(2*e), 2*e], ![r, -(e+r)]]) = !![-(2*e), 2*e; r, -(e+r)] from rfl]
    rw [Matrix.det_fin_two_of]
    ring
  have hup : ((transition_intensity_matrix (mirroredGraph e r)).updateColumn ⟨0, hlen⟩
      (fun _ => 1)).det = -(r + 3 * e) := by
    have h2 : (transition_intensity_matrix (mirroredGraph e r)).updateColumn ⟨0, hlen⟩
        (fun _ => 1) = !![1, 2*e; 1, -(e+r)] := by
      rw [mirrored_tim]
      funext i j
      fin_cases i <;> fin_cases j <;> simp [Matrix.updateColumn_apply]
    rw [h2, Matrix.det_fin_two_of]
    ring
  rw [mttff_exact, dif_pos hlen]
  rw [if_neg (by rw [hdet]; exact h)]
  rw [hdet, hup, neg_neg]

theorem claim_C1_witness :
    2 * (1:ℚ) ^ 2 ≠ 0 ∧
      mttff_exact (mirroredGraph (1:ℚ) 1) = some ((1 + 3 * 1) / (2 * 1 ^ 2)) :=
  ⟨by norm_num, claim_C1_mttff_exact_mirrored 1 1 (by norm_num)⟩

/-- Claim C2: for the same mirrored-disk graph, `mttff_asymptotic()` returns
the symbolic expression `r / (2e^2)`, i.e. the simplified `1 / term_rate`
obtained by propagating population 1 at the root through the major edges.
The hypotheses state that the recovery rate of state 1 and the terminal flux
denominator are not identically zero, exactly the degenerate divisions the
source's symbolic engine cannot perform. -/
theorem claim_C2_mttff_asymptotic_mirrored (e r : F) (hr : r ≠ 0) (h2 : 2 * e ^ 2 ≠ 0) :
    mttff_asymptotic (mirroredGraph e r) = some (r / (2 * e ^ 2)) := by
  have he : e ≠ 0 := by
    intro h
    exact h2 (by rw [h]; ring)
  have h2e : 2 * e ≠ 0 := by
    intro h
    exact h2 (by rw [show (2:F)*e^2 = (2*e)*e by ring, h]; ring)
  have hroot : (mirroredGraph e r).root = some ⟨0, [fault 1 (2*e)], []⟩ := rfl
  have hvme : visit_major_edges (mirroredGraph e r) =
      some [MEvent.pop ⟨0, [fault 1 (2*e)], []⟩,
            MEvent.call (some ⟨1, [fault 2 e], [recover 0 r]⟩) ⟨0, [fault 1 (2*e)], []⟩
              (fault 1 (2*e)),
            MEvent.pop ⟨1, [fault 2 e], [recover 0 r]⟩,
            MEvent.call none ⟨1, [fault 2 e], [recover 0 r]⟩ (fault 2 e)] := rfl
  have hsum : sumRecovers (⟨1, [fault 2 e], [recover 0 r]⟩ : State ℕ F) = r := by
    simp [sumRecovers, recover]
  have hprop : propagate
      [MEvent.pop ⟨0, [fault 1 (2*e)], []⟩,
       MEvent.call (some ⟨1, [fault 2 e], [recover 0 r]⟩) ⟨0, [fault 1 (2*e)], []⟩
         (fault 1 (2*e)),
       MEvent.pop ⟨1, [fault 2 e], [recover 0 r]⟩,
       MEvent.call none ⟨1, [fault 2 e], [recover 0 r]⟩ (fault 2 e)]
      (Function.update (fun _ => (0:F)) 0 1) 0
      = some (Function.update (Function.update (fun _ => (0:F)) 0 1) 1
                (0 + 1 * (2*e) / r),
              0 + (0 + 1 * (2*e) / r) * e) := by
    simp only [propagate, hsum, hr, if_false]
    norm_num [fault, Function.update]
  have hterm : (0:F) + (0 + 1 * (2 * e) / r) * e ≠ 0 := by
    simp only [zero_add, one_mul]
    exact mul_ne_zero (div_ne_zero h2e hr) he
  simp only [mttff_asymptotic, hroot, hvme, hprop]
  rw [if_neg hterm]
  rw [Option.some.injEq]
  field_simp
  exact Or.inl (by ring)

theorem claim_C2_witness :
    (1:ℚ) ≠ 0 ∧ 2 * (1:ℚ) ^ 2 ≠ 0 ∧
      mttff_asymptotic (mirroredGraph (1:ℚ) 1) = some (1 / (2 * 1 ^ 2)) :=
  ⟨by norm_num, by norm_num,
    claim_C2_mttff_asymptotic_mirrored 1 1 (by norm_num) (by norm_num)⟩

/-- Claim C3: for every graph whose transition-intensity matrix `M` (in
`get_states()` order, root at index 0) has nonvanishing determinant,
`mttff_exact()` equals `h[0]` for any solution `h` of the hitting-time
system `M·h = -1`; i.e. the Cramer's-rule value `-det(M')/det(M)` computed
by the source agrees with the root component of the linear system's (unique,
by injectivity) solution. -/
theorem claim_C3_exact_solves_hitting_system (g : StateGraph α F)
    (hn : 0 < (getStates g).length)
    (hv : Fin (getStates g).length → F)
    (hdet : (transition_intensity_matrix g).det ≠ 0)
    (hsol : (transition_intensity_matrix g).mulVec hv = fun _ => -1) :
    mttff_exact g = some (hv ⟨0, hn⟩) := by
  set M := transition_intensity_matrix g with hM
  have hunit : IsUnit M := by
    rw [Matrix.isUnit_iff_isUnit_det]
    exact isUnit_iff_ne_zero.mpr hdet
  have hinj : Function.Injective M.mulVec :=
    Matrix.mulVec_injective_iff_isUnit.mpr hunit
  have hcr : Matrix.cramer M (fun _ => -1) = M.det • hv := by
    apply hinj
    rw [Matrix.mulVec_cramer, Matrix.mulVec_smul, hsol]
  have hval : (M.updateColumn ⟨0, hn⟩ (fun _ => (-1 : F))).det = M.det * hv ⟨0, hn⟩ := by
    have := congrFun hcr ⟨0, hn⟩
    rwa [Matrix.cramer_apply, Pi.smul_apply, smul_eq_mul] at this
  have hneg : (M.updateColumn ⟨0, hn⟩ (fun _ => (-1 : F))).det
      = -(M.updateColumn ⟨0, hn⟩ (fun _ => (1 : F))).det := by
    have h1 : (fun _ : Fin (getStates g).length => (-1 : F))
        = (-1 : F) • (fun _ => (1 : F)) := by
      funext i
      simp
    rw [h1, Matrix.det_updateColumn_smul]
    ring
  rw [mttff_exact, dif_pos hn, if_neg hdet]
  congr 1
  have hkey : -(M.updateColumn ⟨0, hn⟩ (fun _ => (1 : F))).det = M.det * hv ⟨0, hn⟩ := by
    rw [← hneg, hval]
  rw [hkey]
  field_simp

theorem claim_C3_witness :
    (transition_intensity_matrix (mirroredGraph (1:ℚ) 1)).det ≠ 0 ∧
    (transition_intensity_matrix (mirroredGraph (1:ℚ) 1)).mulVec ![2, 3/2] = (fun _ => -1) ∧
    mttff_exact (mirroredGraph (1:ℚ) 1) = some (![2, 3/2] ⟨0, Nat.zero_lt_two⟩) := by
  have h0 : (Matrix.of ![![-(2*(1:ℚ)), 2*1], ![(1:ℚ), -(1+1)]]) = !![-2, 2; 1, -2] := by
    funext i j
    fin_cases i <;> fin_cases j <;> norm_num
  have hM : transition_intensity_matrix (mirroredGraph (1:ℚ) 1) = !![-2, 2; 1, -2] :=
    (mirrored_tim 1 1).trans h0
  have hdet : (transition_intensity_matrix (mirroredGraph (1:ℚ) 1)).det ≠ 0 := by
    rw [hM, Matrix.det_fin_two_of]
    norm_num
  have hsol2 : (!![-2, 2; 1, -2] : Matrix (Fin 2) (Fin 2) ℚ).mulVec ![2, 3/2]
      = (fun _ => -1) := by
    funext i
    fin_cases i <;> norm_num [Matrix.mulVec, Matrix.dotProduct, Fin.sum_univ_two]
  have hsol : (transition_intensity_matrix (mirroredGraph (1:ℚ) 1)).mulVec ![2, 3/2]
      = (fun _ => -1) := by
    rw [hM]
    exact hsol2
  exact ⟨hdet, hsol,
    claim_C3_exact_solves_hitting_system (mirroredGraph (1:ℚ) 1) Nat.zero_lt_two
      ![2, 3/2] hdet hsol⟩

theorem rowWrites_eq_map (g : StateGraph α F) (s : State α F) :
    rowWrites g s = ((s.faults.filter (fun t => t.target ∉ g.term_nodes))
      ++ s.recovers).map (fun t => (t.target, t.rate)) := by
  rw [rowWrites, List.map_append]

theorem writeAll_eq_of_mem_unique (f : α → F) (ws : List (α × F)) (k : α) (v : F)
    (hmem : (k, v) ∈ ws) (hnd : (ws.map Prod.fst).Nodup) :
    writeAll f ws k = v := by
  induction ws generalizing f with
  | nil => cases hmem
  | cons w ws ih =>
    rw [List.map_cons, List.nodup_cons] at hnd
    show writeAll (Function.update f w.1 w.2) ws k = v
    rcases List.mem_cons.mp hmem with h | h
    · have hw : w = (k, v) := h.symm
      subst hw
      rw [writeAll_eq_of_not_mem _ _ _ (fun x hx hk => hnd.1 (by
        have hm : x.1 ∈ List.map Prod.fst ws := List.mem_map_of_mem Prod.fst hx
        rw [hk] at hm
        exact hm))]
      exact Function.update_same _ _ _
    · exact ih _ h hnd.2

theorem getStates_id_ne (g : StateGraph α F)
    (hid : ((getStates g).map State.id).Nodup) (i j : Fin (getStates g).length)
    (hij : i ≠ j) : ((getStates g).get i).id ≠ ((getStates g).get j).id := by
  intro h
  apply hij
  have hlm : ((getStates g).map State.id).length = (getStates g).length :=
    List.length_map _ _
  have h1 : ((getStates g).map State.id).get ⟨i, by rw [hlm]; exact i.isLt⟩
      = ((getStates g).map State.id).get ⟨j, by rw [hlm]; exact j.isLt⟩ := by
    simp only [List.get_eq_getElem, List.getElem_map]
    exact h
  have h2 := hid.get_inj_iff.mp h1
  have h3 : (i : ℕ) = (j : ℕ) := by simpa using congrArg Fin.val h2
  exact Fin.ext h3

theorem tim_offdiag (g : StateGraph α F)
    (hid : ((getStates g).map State.id).Nodup) (i j : Fin (getStates g).length)
    (hij : i ≠ j) :
    transition_intensity_matrix g i j
      = writeAll (fun _ => 0) (rowWrites g ((getStates g).get i))
          (((getStates g).get j).id) := by
  have hne := getStates_id_ne g hid i j hij
  show rowFun g ((getStates g).get i) (((getStates g).get j).id) = _
  rw [rowFun, Function.update_noteq (Ne.symm hne)]

theorem tim_diag (g : StateGraph α F) (i : Fin (getStates g).length) :
    transition_intensity_matrix g i i
      = -(((((getStates g).get i).faults ++ ((getStates g).get i).recovers).map
          Transition.rate).sum) := by
  show rowFun g ((getStates g).get i) (((getStates g).get i).id) = _
  rw [rowFun, Function.update_same, rowTotal]

/-- Claim C4: `transition_intensity_matrix()` is the square matrix in
`get_states()` order where (a) the diagonal entry of row `i` is the negated
sum of all fault and recovery rates leaving state `i`; (b) when no two
transitions of state `i` write the same column, a fault transition's rate
appears at its internal target's column and a recovery transition's rate at
its target's column; (c) entries whose column id is targeted by no
transition of the row are zero (in particular fault transitions to terminal
ids get no column, contributing only to the diagonal total); and (d) for the
mirrored-disk scenario the matrix is `[[-2e, 2e], [r, -(e+r)]]`. -/
theorem claim_C4_intensity_matrix :
    (∀ (g : StateGraph α F) (i : Fin (getStates g).length),
      transition_intensity_matrix g i i
        = -(((((getStates g).get i).faults ++ ((getStates g).get i).recovers).map
            Transition.rate).sum)) ∧
    (∀ (g : StateGraph α F) (i j : Fin (getStates g).length),
      ((getStates g).map State.id).Nodup → i ≠ j →
      (((((getStates g).get i).faults.filter (fun t => t.target ∉ g.term_nodes))
          ++ ((getStates g).get i).recovers).map Transition.target).Nodup →
      (∀ t ∈ ((getStates g).get i).faults, t.target ∉ g.term_nodes →
        t.target = ((getStates g).get j).id →
        transition_intensity_matrix g i j = t.rate) ∧
      (∀ t ∈ ((getStates g).get i).recovers, t.target = ((getStates g).get j).id →
        transition_intensity_matrix g i j = t.rate)) ∧
    (∀ (g : StateGraph α F) (i j : Fin (getStates g).length),
      ((getStates g).map State.id).Nodup → i ≠ j →
      (∀ t ∈ ((getStates g).get i).faults, t.target ∉ g.term_nodes →
        t.target ≠ ((getStates g).get j).id) →
      (∀ t ∈ ((getStates g).get i).recovers, t.target ≠ ((getStates g).get j).id) →
      transition_intensity_matrix g i j = 0) ∧
    (∀ e r : F, transition_intensity_matrix (mirroredGraph e r)
      = Matrix.of ![![-(2 * e), 2 * e], ![r, -(e + r)]]) := by
  refine ⟨?_, ?_, ?_, mirrored_tim⟩
  · intro g i
    exact tim_diag g i
  · intro g i j hid hij hnd
    have hkey : ((rowWrites g ((getStates g).get i)).map Prod.fst).Nodup := by
      rw [rowWrites_eq_map, List.map_map]
      exact hnd
    constructor
    · intro t ht hterm htgt
      rw [tim_offdiag g hid i j hij]
      apply writeAll_eq_of_mem_unique _ _ _ _ _ hkey
      rw [rowWrites_eq_map, ← htgt]
      exact List.mem_map_of_mem _
        (List.mem_append_left _ (List.mem_filter.mpr ⟨ht, by simpa using hterm⟩))
    · intro t ht htgt
      rw [tim_offdiag g hid i j hij]
      apply writeAll_eq_of_mem_unique _ _ _ _ _ hkey
      rw [rowWrites_eq_map, ← htgt]
      exact List.mem_map_of_mem _ (List.mem_append_right _ ht)
  · intro g i j hid hij hf hr
    rw [tim_offdiag g hid i j hij]
    rw [writeAll_eq_of_not_mem]
    intro w hw
    rw [rowWrites_eq_map] at hw
    rcases List.mem_map.mp hw with ⟨t, ht, hw'⟩
    rcases List.mem_append.mp ht with ht' | ht'
    · rcases List.mem_filter.mp ht' with ⟨ht'', hterm⟩
      have := hf t ht'' (by simpa using hterm)
      rw [← hw']
      exact this
    · rw [← hw']
      exact hr t ht'

theorem claim_C4_witness :
    ((getStates (mirroredGraph (1:ℚ) 1)).map State.id).Nodup ∧
    (transition_intensity_matrix (mirroredGraph (1:ℚ) 1)
        ⟨1, Nat.one_lt_two⟩ ⟨1, Nat.one_lt_two⟩
      = -((((⟨1, [fault 2 1], [recover 0 1]⟩ : State ℕ ℚ).faults
          ++ (⟨1, [fault 2 1], [recover 0 1]⟩ : State ℕ ℚ).recovers).map
            Transition.rate).sum)) ∧
    transition_intensity_matrix (mirroredGraph (1:ℚ) 1)
        ⟨1, Nat.one_lt_two⟩ ⟨0, Nat.zero_lt_two⟩ = (recover 0 (1:ℚ)).rate := by
  have hid : ((getStates (mirroredGraph (1:ℚ) 1)).map State.id).Nodup := by decide
  refine ⟨hid, ?_, ?_⟩
  · exact claim_C4_intensity_matrix.1 (mirroredGraph (1:ℚ) 1) ⟨1, Nat.one_lt_two⟩
  · exact (claim_C4_intensity_matrix.2.1 (mirroredGraph (1:ℚ) 1)
      ⟨1, Nat.one_lt_two⟩ ⟨0, Nat.zero_lt_two⟩ hid (by decide) (by decide)).2
      (recover 0 1) (by decide) rfl

/-- Claim C10: when a state has two or more transitions (fault and recovery
lists combined, faults filtered to internal targets since fault writes to
terminal targets do not happen) targeting the same internal column, the
off-diagonal entry equals the rate of the last such transition in processing
order (faults before recoveries, each list left to right), not the sum,
while the diagonal entry is still the negated sum of all the state's rates. -/
theorem claim_C10_last_write_wins (g : StateGraph α F)
    (i j : Fin (getStates g).length)
    (hid : ((getStates g).map State.id).Nodup) (hij : i ≠ j)
    (t' : Transition α F)
    (hlen : 2 ≤ ((((getStates g).get i).faults.filter (fun t => t.target ∉ g.term_nodes)
        ++ ((getStates g).get i).recovers).filter
          (fun t => t.target = ((getStates g).get j).id)).length)
    (hlast : ((((getStates g).get i).faults.filter (fun t => t.target ∉ g.term_nodes)
        ++ ((getStates g).get i).recovers).filter
          (fun t => t.target = ((getStates g).get j).id)).getLast? = some t') :
    transition_intensity_matrix g i j = t'.rate ∧
    transition_intensity_matrix g i i
      = -(((((getStates g).get i).faults ++ ((getStates g).get i).recovers).map
          Transition.rate).sum) := by
  constructor
  · set s := (getStates g).get i with hs
    set k := ((getStates g).get j).id with hk
    have hfil : (rowWrites g s).filter (fun w => w.1 = k)
        = ((s.faults.filter (fun t => t.target ∉ g.term_nodes)
            ++ s.recovers).filter (fun t => t.target = k)).map
          (fun t => (t.target, t.rate)) := by
      rw [rowWrites_eq_map]
      rw [List.filter_map]
      rfl
    have hne : ((s.faults.filter (fun t => t.target ∉ g.term_nodes)
        ++ s.recovers).filter (fun t => t.target = k)) ≠ [] := by
      intro hnil
      rw [hnil] at hlen
      simp at hlen
    have hne' : (rowWrites g s).filter (fun w => w.1 = k) ≠ [] := by
      rw [hfil]
      simpa using hne
    rw [tim_offdiag g hid i j hij, writeAll_eq_getLast _ _ _ hne']
    have hlast' : ((rowWrites g s).filter (fun w => w.1 = k)).getLast?
        = some (t'.target, t'.rate) := by
      rw [hfil, List.getLast?_map, hlast]
      rfl
    rw [List.getLast?_eq_getLast_of_ne_nil hne'] at hlast'
    have := Option.some.inj hlast'
    rw [this]
  · exact tim_diag g i

theorem claim_C10_witness :
    ((getStates dupGraph).map State.id).Nodup ∧
    2 ≤ ((((getStates dupGraph).get ⟨0, Nat.zero_lt_two⟩).faults.filter
        (fun t => t.target ∉ dupGraph.term_nodes)
        ++ ((getStates dupGraph).get ⟨0, Nat.zero_lt_two⟩).recovers).filter
          (fun t => t.target = ((getStates dupGraph).get ⟨1, Nat.one_lt_two⟩).id)).length ∧
    transition_intensity_matrix dupGraph ⟨0, Nat.zero_lt_two⟩ ⟨1, Nat.one_lt_two⟩
      = (fault 1 (3:ℚ)).rate ∧
    transition_intensity_matrix dupGraph ⟨0, Nat.zero_lt_two⟩ ⟨0, Nat.zero_lt_two⟩
      = -(((((getStates dupGraph).get ⟨0, Nat.zero_lt_two⟩).faults
          ++ ((getStates dupGraph).get ⟨0, Nat.zero_lt_two⟩).recovers).map
            Transition.rate).sum) := by
  have h := claim_C10_last_write_wins dupGraph ⟨0, Nat.zero_lt_two⟩ ⟨1, Nat.one_lt_two⟩
    (by decide) (by decide) (fault 1 (3:ℚ)) (by decide) (by decide)
  exact ⟨by decide, by decide, h.1, h.2⟩

/-- Claim C6: with the target's level `tlvl` present in the level map, a
fault transition from level `lvl` is classified minor exactly when
`tlvl ≤ lvl`, major exactly when `tlvl = lvl + 1`, and any other value
(`tlvl > lvl + 1`) is a fatal assertion violation; a recovery transition is
classified minor exactly when `tlvl < lvl`, retained as major exactly when
`tlvl = lvl`, and `tlvl > lvl` is a fatal assertion violation. -/
theorem claim_C6_minor_classification (g : StateGraph α F)
    (lm : List (Option α × ℕ)) (lvl tlvl : ℕ) (t : Transition α F) :
    (alookup lm (classify g t.target) = some tlvl →
      ((is_fault_minor g lm lvl t = some true ↔ tlvl ≤ lvl) ∧
       (is_fault_minor g lm lvl t = some false ↔ tlvl = lvl + 1) ∧
       (is_fault_minor g lm lvl t = none ↔ lvl + 1 < tlvl))) ∧
    (alookup lm (some t.target) = some tlvl →
      ((is_recovery_minor g lm lvl t = some true ↔ tlvl < lvl) ∧
       (is_recovery_minor g lm lvl t = some false ↔ tlvl = lvl) ∧
       (is_recovery_minor g lm lvl t = none ↔ lvl < tlvl))) := by
  constructor
  · intro h
    simp only [is_fault_minor, h]
    refine ⟨?_, ?_, ?_⟩ <;> split_ifs with h1 h2 <;> simp <;> omega
  · intro h
    simp only [is_recovery_minor, h]
    refine ⟨?_, ?_, ?_⟩ <;> split_ifs with h1 <;> simp <;> omega

theorem claim_C6_witness :
    (alookup [(some 1, 2)] (classify (emptyGraph (α := ℕ) (F := ℚ)) 1) = some 2 ∧
      is_fault_minor (emptyGraph (α := ℕ) (F := ℚ)) [(some 1, 2)] 1 (fault 1 (1:ℚ))
        = some false) ∧
    (alookup [(some 1, 2)] (some 1) = some 2 ∧
      is_recovery_minor (emptyGraph (α := ℕ) (F := ℚ)) [(some 1, 2)] 3 (recover 1 (1:ℚ))
        = some true) := by
  constructor
  · constructor
    · decide
    · exact ((claim_C6_minor_classification (emptyGraph (α := ℕ) (F := ℚ))
        [(some 1, 2)] 1 2 (fault 1 (1:ℚ))).1 (by decide)).2.1.mpr rfl
  · constructor
    · decide
    · exact ((claim_C6_minor_classification (emptyGraph (α := ℕ) (F := ℚ))
        [(some 1, 2)] 3 2 (recover 1 (1:ℚ))).2 (by decide)).1.mpr (by omega)

theorem propagate_none_of_zero_recovery (evs : List (MEvent α F)) (pop : α → F) (term : F)
    (hbad : ∃ ev ∈ evs, ∃ n src t, ev = MEvent.call (some n) src t ∧ sumRecovers n = 0) :
    propagate evs pop term = none := by
  induction evs generalizing pop term with
  | nil =>
    rcases hbad with ⟨ev, hmem, _⟩
    cases hmem
  | cons ev evs ih =>
    rcases hbad with ⟨ev', hmem, n, src, t, hev, hn⟩
    rcases List.mem_cons.mp hmem with he | he
    · rw [← he, hev]
      simp only [propagate]
      rw [if_pos hn]
    · cases ev with
      | pop s => exact ih _ _ ⟨ev', he, n, src, t, hev, hn⟩
      | call tgt src' t' =>
        cases tgt with
        | none => exact ih _ _ ⟨ev', he, n, src, t, hev, hn⟩
        | some m =>
          simp only [propagate]
          split_ifs with h
          · rfl
          · exact ih _ _ ⟨ev', he, n, src, t, hev, hn⟩

theorem visit_major_edges_root (g : StateGraph α F) (evs : List (MEvent α F))
    (h : visit_major_edges g = some evs) : ∃ rt, g.root = some rt := by
  cases hr : g.root with
  | none =>
    rw [visit_major_edges, hr] at h
    cases h
  | some rt => exact ⟨rt, rfl⟩

/-- Claim C8: `mttff_exact()` fails (aborts, returning no finite expression)
whenever `det(M)` is identically zero; `mttff_asymptotic()` fails whenever
the recovery-rate sum of some internal target visited by the major-edge
traversal is identically zero, and whenever the accumulated `term_rate` is
identically zero. -/
theorem claim_C8_degenerate_solves_fail :
    (∀ g : StateGraph α F, (transition_intensity_matrix g).det = 0 →
      mttff_exact g = none) ∧
    (∀ (g : StateGraph α F) (evs : List (MEvent α F)),
      visit_major_edges g = some evs →
      (∃ ev ∈ evs, ∃ n src t, ev = MEvent.call (some n) src t ∧ sumRecovers n = 0) →
      mttff_asymptotic g = none) ∧
    (∀ (g : StateGraph α F) (rt : State α F) (evs : List (MEvent α F))
        (res : (α → F) × F),
      g.root = some rt → visit_major_edges g = some evs →
      propagate evs (Function.update (fun _ => 0) rt.id 1) 0 = some res →
      res.2 = 0 → mttff_asymptotic g = none) := by
  refine ⟨?_, ?_, ?_⟩
  · intro g hdet
    by_cases hn : 0 < (getStates g).length
    · rw [mttff_exact, dif_pos hn, if_pos hdet]
    · rw [mttff_exact, dif_neg hn]
  · intro g evs hvme hbad
    obtain ⟨rt, hroot⟩ := visit_major_edges_root g evs hvme
    have hp := propagate_none_of_zero_recovery evs
      (Function.update (fun _ => 0) rt.id 1) 0 hbad
    simp only [mttff_asymptotic, hroot, hvme, hp]
  · intro g rt evs res hroot hvme hprop hz
    simp only [mttff_asymptotic, hroot, hvme, hprop]
    rw [if_pos hz]

theorem claim_C8_witness :
    ((transition_intensity_matrix noFaultGraph).det = 0 ∧
      mttff_exact noFaultGraph = none) ∧
    (visit_major_edges noRecoverGraph =
        some [MEvent.pop ⟨0, [fault 1 1], []⟩,
              MEvent.call (some ⟨1, [fault 2 1], []⟩) ⟨0, [fault 1 1], []⟩ (fault 1 1),
              MEvent.pop ⟨1, [fault 2 1], []⟩,
              MEvent.call none ⟨1, [fault 2 1], []⟩ (fault 2 1)] ∧
      mttff_asymptotic noRecoverGraph = none) ∧
    (zeroTermGraph.root = some ⟨0, [fault 1 1], []⟩ ∧
      visit_major_edges zeroTermGraph =
        some [MEvent.pop ⟨0, [fault 1 1], []⟩,
              MEvent.call (some ⟨1, [fault 2 0], [recover 0 1]⟩) ⟨0, [fault 1 1], []⟩
                (fault 1 1),
              MEvent.pop ⟨1, [fault 2 0], [recover 0 1]⟩,
              MEvent.call none ⟨1, [fault 2 0], [recover 0 1]⟩ (fault 2 0)] ∧
      propagate
          [MEvent.pop ⟨0, [fault 1 1], []⟩,
           MEvent.call (some ⟨1, [fault 2 0], [recover 0 1]⟩) ⟨0, [fault 1 1], []⟩
             (fault 1 1),
           MEvent.pop ⟨1, [fault 2 0], [recover 0 1]⟩,
           MEvent.call none ⟨1, [fault 2 0], [recover 0 1]⟩ (fault 2 0)]
          (Function.update (fun _ => (0:ℚ)) 0 1) 0
        = some (Function.update (Function.update (fun _ => (0:ℚ)) 0 1) 1
            (0 + 1 * 1 / (1 + 0)), 0 + (0 + 1 * 1 / (1 + 0)) * 0) ∧
      mttff_asymptotic zeroTermGraph = none) := by
  have hdet : (transition_intensity_matrix noFaultGraph).det = 0 := by
    have h1 : transition_intensity_matrix noFaultGraph = !![(0:ℚ)] := by
      funext i j
      fin_cases i <;> fin_cases j <;> decide
    have h2 : (!![(0:ℚ)] : Matrix (Fin 1) (Fin 1) ℚ).det = 0 := by
      rw [Matrix.det_fin_one]
      norm_num
    rw [h1]
    exact h2
  have hvme2 : visit_major_edges noRecoverGraph =
      some [MEvent.pop ⟨0, [fault 1 1], []⟩,
            MEvent.call (some ⟨1, [fault 2 1], []⟩) ⟨0, [fault 1 1], []⟩ (fault 1 1),
            MEvent.pop ⟨1, [fault 2 1], []⟩,
            MEvent.call none ⟨1, [fault 2 1], []⟩ (fault 2 1)] := rfl
  have hbad : ∃ ev ∈ [MEvent.pop (⟨0, [fault 1 1], []⟩ : State ℕ ℚ),
      MEvent.call (some ⟨1, [fault 2 1], []⟩) ⟨0, [fault 1 1], []⟩ (fault 1 1),
      MEvent.pop ⟨1, [fault 2 1], []⟩,
      MEvent.call none ⟨1, [fault 2 1], []⟩ (fault 2 1)],
      ∃ n src t, ev = MEvent.call (some n) src t ∧ sumRecovers n = 0 :=
    ⟨MEvent.call (some ⟨1, [fault 2 1], []⟩) ⟨0, [fault 1 1], []⟩ (fault 1 1),
      by decide, ⟨1, [fault 2 1], []⟩, ⟨0, [fault 1 1], []⟩, fault 1 1, rfl, rfl⟩
  have hvme3 : visit_major_edges zeroTermGraph =
      some [MEvent.pop ⟨0, [fault 1 1], []⟩,
            MEvent.call (some ⟨1, [fault 2 0], [recover 0 1]⟩) ⟨0, [fault 1 1], []⟩
              (fault 1 1),
            MEvent.pop ⟨1, [fault 2 0], [recover 0 1]⟩,
            MEvent.call none ⟨1, [fault 2 0], [recover 0 1]⟩ (fault 2 0)] := rfl
  have hprop3 : propagate
      [MEvent.pop ⟨0, [fault 1 1], []⟩,
       MEvent.call (some ⟨1, [fault 2 0], [recover 0 1]⟩) ⟨0, [fault 1 1], []⟩
         (fault 1 1),
       MEvent.pop ⟨1, [fault 2 0], [recover 0 1]⟩,
       MEvent.call none ⟨1, [fault 2 0], [recover 0 1]⟩ (fault 2 0)]
      (Function.update (fun _ => (0:ℚ)) 0 1) 0
      = some (Function.update (Function.update (fun _ => (0:ℚ)) 0 1) 1
          (0 + 1 * 1 / (1 + 0)), 0 + (0 + 1 * 1 / (1 + 0)) * 0) := by
    simp only [propagate, sumRecovers, recover, fault, List.map_cons, List.map_nil,
      List.sum_cons, List.sum_nil]
    rw [if_neg (by norm_num : ¬((1:ℚ) + 0 = 0))]
    norm_num [Function.update]
  refine ⟨⟨hdet, claim_C8_degenerate_solves_fail.1 noFaultGraph hdet⟩,
    ⟨hvme2, claim_C8_degenerate_solves_fail.2.1 noRecoverGraph _ hvme2 hbad⟩,
    ⟨rfl, hvme3, hprop3, claim_C8_degenerate_solves_fail.2.2 zeroTermGraph _ _ _
      rfl hvme3 hprop3 (by norm_num)⟩⟩

theorem claim_C9_counterexample :
    c9seq.isSome = true ∧
    c9seq.map (fun g => decide ((0:ℕ) ∈ nodeIds g ∧ (0:ℕ) ∈ g.term_nodes)) = some true :=
  ⟨rfl, rfl⟩

theorem mem_nodeIds_insertNode (ns : List (α × State α F)) (id a : α) (s : State α F)
    (h : a ∈ (insertNode ns id s).map Prod.fst) : a = id ∨ a ∈ ns.map Prod.fst := by
  rw [insertNode] at h
  split_ifs at h with hc
  · rcases List.mem_map.mp h with ⟨p, hp, hkey⟩
    rcases List.mem_map.mp hp with ⟨q, hq, hqe⟩
    by_cases hq1 : q.1 = id
    · rw [if_pos hq1] at hqe
      left
      rw [← hkey, ← hqe]
    · rw [if_neg hq1] at hqe
      right
      rw [← hkey, ← hqe]
      exact List.mem_map_of_mem Prod.fst hq
  · rw [List.map_append] at h
    rcases List.mem_append.mp h with h1 | h1
    · right
      exact h1
    · left
      simpa using h1

/-- Claim C9 (amended): `add_term_state` rejects an id already used as an
internal node id, and both operations preserve disjointness of the internal
and terminal id spaces provided the id passed to `add_state` is not already
a terminal id; `add_state` itself performs no such check, so a completing
sequence that reuses a terminal id as an internal id (see the
counterexample) does break disjointness. -/
theorem claim_C9_disjoint_id_spaces_amended :
    (∀ (g : StateGraph α F) (id : α), id ∈ nodeIds g → add_term_state g id = none) ∧
    (∀ (g g' : StateGraph α F) (id : α) (faults recovers : List (Transition α F))
        (is_root : Bool),
      List.Disjoint (nodeIds g) g.term_nodes → id ∉ g.term_nodes →
      add_state g id faults recovers is_root = some g' →
      List.Disjoint (nodeIds g') g'.term_nodes) ∧
    (∀ (g g' : StateGraph α F) (id : α),
      List.Disjoint (nodeIds g) g.term_nodes →
      add_term_state g id = some g' →
      List.Disjoint (nodeIds g') g'.term_nodes) := by
  refine ⟨?_, ?_, ?_⟩
  · intro g id hmem
    rw [add_term_state, if_pos]
    rw [List.any_eq_true]
    rcases List.mem_map.mp hmem with ⟨p, hp, he⟩
    exact ⟨p, hp, by simpa using he⟩
  · intro g g' id faults recovers is_root hdisj hid hadd
    have hg' : g'.nodes = insertNode g.nodes id ⟨id, faults, recovers⟩
        ∧ g'.term_nodes = g.term_nodes := by
      cases is_root with
      | false =>
        simp only [add_state, Bool.false_eq_true, if_false, Option.some.injEq] at hadd
        rw [← hadd]
        exact ⟨rfl, rfl⟩
      | true =>
        rcases hroot : g.root with _ | rt
        · simp only [add_state, if_true, hroot] at hadd
          split_ifs at hadd with hre
          rw [Option.some.injEq] at hadd
          rw [← hadd]
          exact ⟨rfl, rfl⟩
        · simp only [add_state, if_true, hroot] at hadd
          cases hadd
    intro a hmem hterm
    rw [nodeIds, hg'.1] at hmem
    rw [hg'.2] at hterm
    rcases mem_nodeIds_insertNode _ _ _ _ hmem with h | h
    · rw [h] at hterm
      exact hid hterm
    · exact hdisj h hterm
  · intro g g' id hdisj hadd
    rw [add_term_state] at hadd
    split_ifs at hadd with hc
    cases hadd
    intro a hmem hterm
    rcases List.mem_append.mp hterm with h | h
    · exact hdisj hmem h
    · have : a = id := by simpa using h
      rw [this] at hmem
      apply hc
      rw [List.any_eq_true]
      rcases List.mem_map.mp hmem with ⟨p, hp, he⟩
      exact ⟨p, hp, by simpa using he⟩

theorem claim_C9_witness :
    ((0:ℕ) ∈ nodeIds (⟨none, [(0, ⟨0, [], []⟩)], []⟩ : StateGraph ℕ ℚ) ∧
      add_term_state (⟨none, [(0, ⟨0, [], []⟩)], []⟩ : StateGraph ℕ ℚ) 0 = none) ∧
    (List.Disjoint (nodeIds (emptyGraph (α := ℕ) (F := ℚ)))
        (emptyGraph (α := ℕ) (F := ℚ)).term_nodes ∧
      (1:ℕ) ∉ (emptyGraph (α := ℕ) (F := ℚ)).term_nodes ∧
      add_state (emptyGraph (α := ℕ) (F := ℚ)) 1 [] [] false
        = some (⟨none, [(1, ⟨1, [], []⟩)], []⟩ : StateGraph ℕ ℚ) ∧
      List.Disjoint (nodeIds (⟨none, [(1, ⟨1, [], []⟩)], []⟩ : StateGraph ℕ ℚ))
        (⟨none, [(1, ⟨1, [], []⟩)], []⟩ : StateGraph ℕ ℚ).term_nodes) ∧
    (add_term_state (⟨none, [(1, ⟨1, [], []⟩)], []⟩ : StateGraph ℕ ℚ) 2
        = some (⟨none, [(1, ⟨1, [], []⟩)], [2]⟩ : StateGraph ℕ ℚ) ∧
      List.Disjoint (nodeIds (⟨none, [(1, ⟨1, [], []⟩)], [2]⟩ : StateGraph ℕ ℚ))
        (⟨none, [(1, ⟨1, [], []⟩)], [2]⟩ : StateGraph ℕ ℚ).term_nodes) := by
  have e1 : add_term_state (⟨none, [(0, ⟨0, [], []⟩)], []⟩ : StateGraph ℕ ℚ) 0 = none :=
    claim_C9_disjoint_id_spaces_amended.1
      (⟨none, [(0, ⟨0, [], []⟩)], []⟩ : StateGraph ℕ ℚ) 0 (by decide)
  have d0 : List.Disjoint (nodeIds (emptyGraph (α := ℕ) (F := ℚ)))
      (emptyGraph (α := ℕ) (F := ℚ)).term_nodes := by
    intro a h1 h2
    simp [nodeIds, emptyGraph] at h1
  have hadd : add_state (emptyGraph (α := ℕ) (F := ℚ)) 1 [] [] false
      = some (⟨none, [(1, ⟨1, [], []⟩)], []⟩ : StateGraph ℕ ℚ) := rfl
  have d1 : List.Disjoint (nodeIds (⟨none, [(1, ⟨1, [], []⟩)], []⟩ : StateGraph ℕ ℚ))
      (⟨none, [(1, ⟨1, [], []⟩)], []⟩ : StateGraph ℕ ℚ).term_nodes :=
    claim_C9_disjoint_id_spaces_amended.2.1 (emptyGraph (α := ℕ) (F := ℚ)) _ 1 [] [] false
      d0 (by decide) hadd
  have hterm : add_term_state (⟨none, [(1, ⟨1, [], []⟩)], []⟩ : StateGraph ℕ ℚ) 2
      = some (⟨none, [(1, ⟨1, [], []⟩)], [2]⟩ : StateGraph ℕ ℚ) := rfl
  have d2 : List.Disjoint (nodeIds (⟨none, [(1, ⟨1, [], []⟩)], [2]⟩ : StateGraph ℕ ℚ))
      (⟨none, [(1, ⟨1, [], []⟩)], [2]⟩ : StateGraph ℕ ℚ).term_nodes :=
    claim_C9_disjoint_id_spaces_amended.2.2 _ _ 2 d1 hterm
  exact ⟨⟨by decide, e1⟩, ⟨d0, by decide, hadd, d1⟩, hterm, d2⟩

theorem alookup_some_mem {β γ : Type} [DecidableEq β] (l : List (β × γ)) (k : β) (v : γ)
    (h : alookup l k = some v) : (k, v) ∈ l := by
  rw [alookup] at h
  rcases hf : l.find? (fun p => p.1 = k) with _ | p
  · rw [hf] at h
    cases h
  · rw [hf] at h
    have hp := List.mem_of_find?_eq_some hf
    have hk := List.find?_some hf
    simp only [decide_eq_true_eq] at hk
    have hv : p.2 = v := by
      simpa using h
    rw [← hk, ← hv]
    exact hp

theorem alookup_isSome_iff {β γ : Type} [DecidableEq β] (l : List (β × γ)) (k : β) :
    (∃ v, alookup l k = some v) ↔ k ∈ l.map Prod.fst := by
  constructor
  · rintro ⟨v, hv⟩
    exact List.mem_map_of_mem Prod.fst (alookup_some_mem l k v hv)
  · intro hk
    rcases List.mem_map.mp hk with ⟨p, hp, hpk⟩
    rcases hf : l.find? (fun p => p.1 = k) with _ | q
    · rw [List.find?_eq_none] at hf
      exact absurd (by simpa using hpk : decide (p.1 = k) = true) (by simpa using hf p hp)
    · exact ⟨q.2, by rw [alookup, hf]; rfl⟩

theorem mem_alookup_of_nodup {β γ : Type} [DecidableEq β] (l : List (β × γ)) (k : β) (v : γ)
    (hnd : (l.map Prod.fst).Nodup) (hmem : (k, v) ∈ l) : alookup l k = some v := by
  induction l with
  | nil => cases hmem
  | cons p l ih =>
    rw [List.map_cons, List.nodup_cons] at hnd
    rcases List.mem_cons.mp hmem with h | h
    · rw [alookup, List.find?_cons_of_pos _ (by rw [← h]; simp)]
      rw [← h]
      rfl
    · have hne : ¬(p.1 = k) := by
        intro he
        apply hnd.1
        rw [he]
        exact List.mem_map_of_mem Prod.fst h
      rw [alookup, List.find?_cons_of_neg _ (by simpa using hne)]
      exact ih hnd.2 h

theorem find_node_classOf (g : StateGraph α F)
    (hkeys : ∀ p ∈ g.nodes, (p.2).id = p.1) (x : α) (m : Option (State α F))
    (h : find_node g x = some m) : classOf m = classify g x := by
  rw [find_node] at h
  split_ifs at h with ht
  · rw [← Option.some.inj h, classify, if_pos ht]
    rfl
  · rcases hl : lookupNode g x with _ | s
    · rw [hl] at h
      cases h
    · rw [hl] at h
      have hs := Option.some.inj h
      have hid : s.id = x :=
        hkeys _ (alookup_some_mem g.nodes x s hl)
      rw [classify, if_neg ht, ← hs]
      show some s.id = some x
      rw [hid]

theorem childrenOf_mem (g : StateGraph α F) (lvl : ℕ) (ts : List (Transition α F))
    (cs : List (Option (State α F) × ℕ)) (h : childrenOf g lvl ts = some cs) :
    (∀ c ∈ cs, c.2 = lvl + 1 ∧ ∃ t ∈ ts, find_node g t.target = some c.1) ∧
    (∀ t ∈ ts, ∃ m, find_node g t.target = some m ∧ (m, lvl + 1) ∈ cs) := by
  induction ts generalizing cs with
  | nil =>
    cases h
    exact ⟨fun c hc => absurd hc (List.not_mem_nil c), fun t ht => absurd ht (List.not_mem_nil t)⟩
  | cons t ts ih =>
    rw [childrenOf] at h
    rcases hf : find_node g t.target with _ | m
    · rw [hf] at h
      cases h
    · rw [hf] at h
      rcases hcs : childrenOf g lvl ts with _ | cs'
      · rw [hcs] at h
        cases h
      · rw [hcs] at h
        cases h
        rcases ih cs' hcs with ⟨ih1, ih2⟩
        constructor
        · intro c hc
          rcases List.mem_cons.mp hc with hc' | hc'
          · rw [hc']
            exact ⟨rfl, t, List.mem_cons_self _ _, hf⟩
          · rcases ih1 c hc' with ⟨hc2, t', ht', hft'⟩
            exact ⟨hc2, t', List.mem_cons_of_mem _ ht', hft'⟩
        · intro t' ht'
          rcases List.mem_cons.mp ht' with ht'' | ht''
          · rw [ht'']
            exact ⟨m, hf, List.mem_cons_self _ _⟩
          · rcases ih2 t' ht'' with ⟨m', hm', hmem⟩
            exact ⟨m', hm', List.mem_cons_of_mem _ hmem⟩

theorem visitAux_nil_inv (g : StateGraph α F) (fuel : ℕ) (visited : List (Option α))
    (tr : List (Option (State α F) × ℕ)) (V : List (Option α))
    (h : visitAux g fuel [] visited = some (tr, V)) : tr = [] ∧ V = visited := by
  cases fuel with
  | zero => cases h
  | succ fuel =>
    have h' : some (([] : List (Option (State α F) × ℕ)), visited) = some (tr, V) := h
    have h2 := Prod.ext_iff.mp (Option.some.inj h')
    exact ⟨h2.1.symm, h2.2.symm⟩

theorem visitAux_cons_vis (g : StateGraph α F) (fuel : ℕ) (n : Option (State α F))
    (lvl : ℕ) (rest : List (Option (State α F) × ℕ)) (visited : List (Option α))
    (h : n.map State.id ∈ visited) :
    visitAux g (fuel + 1) ((n, lvl) :: rest) visited = visitAux g fuel rest visited := by
  simp only [visitAux]
  rw [if_pos h]

theorem visitAux_cons_none (g : StateGraph α F) (fuel : ℕ) (lvl : ℕ)
    (rest : List (Option (State α F) × ℕ)) (visited : List (Option α))
    (h : (none : Option α) ∉ visited) :
    visitAux g (fuel + 1) ((none, lvl) :: rest) visited =
      (visitAux g fuel rest ((none : Option α) :: visited)).map
        (fun r => ((none, lvl) :: r.1, r.2)) := by
  simp only [visitAux]
  have hm : Option.map State.id (none : Option (State α F)) = (none : Option α) := rfl
  rw [hm, if_neg h]

theorem visitAux_cons_some (g : StateGraph α F) (fuel : ℕ) (s : State α F)
    (lvl : ℕ) (rest : List (Option (State α F) × ℕ)) (visited : List (Option α))
    (h : (some s.id : Option α) ∉ visited) :
    visitAux g (fuel + 1) ((some s, lvl) :: rest) visited =
      (match childrenOf g lvl s.faults with
       | none => none
       | some children =>
         (visitAux g fuel (rest ++ children) ((some s.id : Option α) :: visited)).map
           (fun r => ((some s, lvl) :: r.1, r.2))) := by
  simp only [visitAux]
  have hm : Option.map State.id (some s) = (some s.id : Option α) := rfl
  rw [hm, if_neg h]

theorem lmOf_keys (tr : List (Option (State α F) × ℕ)) :
    (lmOf tr).map Prod.fst = VcOf tr := by
  rw [lmOf, VcOf, List.map_map]
  rfl

theorem childEntryOk (g : StateGraph α F) (rt : State α F)
    (hkeys : ∀ p ∈ g.nodes, (p.2).id = p.1) (s : State α F) (lvl : ℕ)
    (hreach : FaultReach g rt (some s.id) lvl)
    (hfn : find_node g s.id = some (some s)) (t : Transition α F)
    (ht : t ∈ s.faults) (m : Option (State α F))
    (hm : find_node g t.target = some m) : EntryOk g rt (m, lvl + 1) := by
  have hstep := FaultReach.step hreach hfn ht
  have hcls := find_node_classOf g hkeys t.target m hm
  cases m with
  | none =>
    show FaultReach g rt none (lvl + 1)
    rw [← hcls] at hstep
    exact hstep
  | some s' =>
    have hid : s'.id = t.target := by
      rw [find_node] at hm
      split_ifs at hm with hterm
      · cases Option.some.inj hm
      · rcases hl : lookupNode g t.target with _ | s''
        · rw [hl] at hm
          cases hm
        · rw [hl] at hm
          have h2 := Option.some.inj hm
          rw [← Option.some.inj h2]
          exact hkeys _ (alookup_some_mem g.nodes t.target s'' hl)
    constructor
    · rw [← hcls] at hstep
      exact hstep
    · rw [hid]
      exact hm

theorem visitAux_spec (g : StateGraph α F) (rt : State α F)
    (hkeys : ∀ p ∈ g.nodes, (p.2).id = p.1) :
    ∀ (fuel : ℕ) (queue : List (Option (State α F) × ℕ)) (visited : List (Option α))
      (tr : List (Option (State α F) × ℕ)) (V : List (Option α)),
    visitAux g fuel queue visited = some (tr, V) →
    (∀ p ∈ queue, EntryOk g rt p) →
    List.Pairwise (fun p q => p.2 ≤ q.2 ∧ q.2 ≤ p.2 + 1) queue →
    (∀ p ∈ tr, EntryOk g rt p) ∧
    V = (VcOf tr).reverse ++ visited ∧
    (VcOf tr).Nodup ∧
    (∀ c ∈ VcOf tr, c ∉ visited) ∧
    (∀ p ∈ queue, classOf p.1 ∈ visited ∨ ∃ l, l ≤ p.2 ∧ (classOf p.1, l) ∈ lmOf tr) ∧
    (∀ s l, (some s, l) ∈ tr → ∀ t ∈ s.faults,
      (classify g t.target ∈ visited ∨
        ∃ l', l' ≤ l + 1 ∧ (classify g t.target, l') ∈ lmOf tr)) ∧
    (∀ p ∈ tr, ∀ q lq, queue.head? = some (q, lq) → lq ≤ p.2) := by
  intro fuel
  induction fuel with
  | zero =>
    intro queue visited tr V hrun
    cases hrun
  | succ fuel ih =>
    intro queue visited tr V hrun hq1 hq2
    rcases queue with _ | ⟨⟨n, lvl⟩, rest⟩
    · rcases visitAux_nil_inv _ _ _ _ _ hrun with ⟨htr, hV⟩
      subst htr
      subst hV
      refine ⟨?_, rfl, ?_, ?_, ?_, ?_, ?_⟩ <;> simp [VcOf, lmOf]
    · rw [List.pairwise_cons] at hq2
      by_cases hvis : (n.map State.id) ∈ visited
      · rw [visitAux_cons_vis g fuel n lvl rest visited hvis] at hrun
        rcases ih rest visited tr V hrun (fun p hp => hq1 p (List.mem_cons_of_mem _ hp))
          hq2.2 with ⟨k1, k2, k3, k4, k5, k6, k7⟩
        have hlb : ∀ p ∈ tr, lvl ≤ p.2 := by
          intro p hp
          rcases hrq : rest with _ | ⟨⟨q', lq'⟩, rest'⟩
          · rw [hrq] at hrun
            rcases visitAux_nil_inv _ _ _ _ _ hrun with ⟨htr, _⟩
            rw [htr] at hp
            cases hp
          · have hh := k7 p hp q' lq' (by rw [hrq]; rfl)
            have hcross := hq2.1 (q', lq') (by rw [hrq]; exact List.mem_cons_self _ _)
            have : lvl ≤ lq' := hcross.1
            omega
        refine ⟨k1, k2, k3, k4, ?_, k6, ?_⟩
        · intro p hp
          rcases List.mem_cons.mp hp with hp' | hp'
          · left
            rw [hp']
            exact hvis
          · exact k5 p hp'
        · intro p hp q lq hhd
          have hq := Option.some.inj hhd
          have hlv : lq = lvl := (Prod.ext_iff.mp hq.symm).2
          rw [hlv]
          exact hlb p hp
      · rcases n with _ | s
        · rw [visitAux_cons_none g fuel lvl rest visited (by simpa using hvis)] at hrun
          rcases hres : visitAux g fuel rest ((none : Option α) :: visited) with _ | ⟨tr', V'⟩
          · rw [hres] at hrun
            cases hrun
          · rw [hres] at hrun
            have hrun2 := Option.some.inj hrun
            have htr : tr = (none, lvl) :: tr' := (Prod.ext_iff.mp hrun2).1.symm
            have hV : V = V' := (Prod.ext_iff.mp hrun2).2.symm
            subst htr
            rcases ih rest ((none : Option α) :: visited) tr' V' hres
              (fun p hp => hq1 p (List.mem_cons_of_mem _ hp)) hq2.2 with
              ⟨k1, k2, k3, k4, k5, k6, k7⟩
            have hVc : VcOf ((none, lvl) :: tr') = (none : Option α) :: VcOf tr' := rfl
            have hlm : lmOf ((none, lvl) :: tr') = ((none : Option α), lvl) :: lmOf tr' := rfl
            have hlb : ∀ p ∈ tr', lvl ≤ p.2 := by
              intro p hp
              rcases hrq : rest with _ | ⟨⟨q', lq'⟩, rest'⟩
              · rw [hrq] at hres
                rcases visitAux_nil_inv _ _ _ _ _ hres with ⟨htr', _⟩
                rw [htr'] at hp
                cases hp
              · have hh := k7 p hp q' lq' (by rw [hrq]; rfl)
                have hcross := hq2.1 (q', lq') (by rw [hrq]; exact List.mem_cons_self _ _)
                have : lvl ≤ lq' := hcross.1
                omega
            refine ⟨?_, ?_, ?_, ?_, ?_, ?_, ?_⟩
            · intro p hp
              rcases List.mem_cons.mp hp with hp' | hp'
              · rw [hp']
                exact hq1 _ (List.mem_cons_self _ _)
              · exact k1 p hp'
            · rw [hV, k2, hVc, List.reverse_cons, List.append_assoc]
              rfl
            · rw [hVc, List.nodup_cons]
              exact ⟨fun hmem => (k4 none hmem) (List.mem_cons_self _ _), k3⟩
            · intro c hc
              rw [hVc] at hc
              rcases List.mem_cons.mp hc with hc' | hc'
              · rw [hc']
                exact hvis
              · exact fun hcv => (k4 c hc') (List.mem_cons_of_mem _ hcv)
            · intro p hp
              rcases List.mem_cons.mp hp with hp' | hp'
              · right
                rw [hp']
                refine ⟨lvl, le_refl _, ?_⟩
                rw [hlm]
                exact List.mem_cons_self _ _
              · rcases k5 p hp' with hin | ⟨l, hl, hmem⟩
                · rcases List.mem_cons.mp hin with hc | hc
                  · right
                    refine ⟨lvl, (hq2.1 p hp').1, ?_⟩
                    rw [hlm, hc]
                    exact List.mem_cons_self _ _
                  · left
                    exact hc
                · right
                  exact ⟨l, hl, by rw [hlm]; exact List.mem_cons_of_mem _ hmem⟩
            · intro s l hsl t htf
              rcases List.mem_cons.mp hsl with hp' | hp'
              · cases hp'
              · rcases k6 s l hp' t htf with hin | ⟨l', hl', hmem⟩
                · rcases List.mem_cons.mp hin with hc | hc
                  · right
                    refine ⟨lvl, ?_, ?_⟩
                    · have := hlb (some s, l) hp'
                      omega
                    · rw [hlm, hc]
                      exact List.mem_cons_self _ _
                  · left
                    exact hc
                · right
                  exact ⟨l', hl', by rw [hlm]; exact List.mem_cons_of_mem _ hmem⟩
            · intro p hp q lq hhd
              have hq := Option.some.inj hhd
              have hlv : lq = lvl := (Prod.ext_iff.mp hq.symm).2
              rcases List.mem_cons.mp hp with hp' | hp'
              · rw [hp', hlv]
              · rw [hlv]
                exact hlb p hp'
        · rw [visitAux_cons_some g fuel s lvl rest visited (by simpa using hvis)] at hrun
          rcases hch : childrenOf g lvl s.faults with _ | children
          · simp only [hch] at hrun
            cases hrun
          · simp only [hch] at hrun
            rcases hres : visitAux g fuel (rest ++ children)
                ((some s.id : Option α) :: visited) with _ | ⟨tr', V'⟩
            · rw [hres] at hrun
              cases hrun
            · rw [hres] at hrun
              have hrun2 := Option.some.inj hrun
              have htr : tr = (some s, lvl) :: tr' := (Prod.ext_iff.mp hrun2).1.symm
              have hV : V = V' := (Prod.ext_iff.mp hrun2).2.symm
              subst htr
              rcases childrenOf_mem g lvl s.faults children hch with ⟨hc1, hc2⟩
              have hOk := hq1 (some s, lvl) (List.mem_cons_self _ _)
              have hreach : FaultReach g rt (some s.id) lvl := hOk.1
              have hfn : find_node g s.id = some (some s) := hOk.2
              have hq1' : ∀ p ∈ rest ++ children, EntryOk g rt p := by
                intro p hp
                rcases List.mem_append.mp hp with hp' | hp'
                · exact hq1 p (List.mem_cons_of_mem _ hp')
                · rcases hc1 p hp' with ⟨hp2, t, ht, hft⟩
                  have := childEntryOk g rt hkeys s lvl hreach hfn t ht p.1 hft
                  rwa [show (p.1, lvl + 1) = p from by rw [← hp2]] at this
              have hq2' : List.Pairwise (fun p q => p.2 ≤ q.2 ∧ q.2 ≤ p.2 + 1)
                  (rest ++ children) := by
                rw [List.pairwise_append]
                refine ⟨hq2.2, ?_, ?_⟩
                · apply List.pairwise_of_forall_mem_list
                  intro a ha b hb
                  rw [(hc1 a ha).1, (hc1 b hb).1]
                  omega
                · intro a ha b hb
                  have h1 := hq2.1 a ha
                  rw [(hc1 b hb).1]
                  omega
              rcases ih (rest ++ children) ((some s.id : Option α) :: visited) tr' V' hres
                hq1' hq2' with ⟨k1, k2, k3, k4, k5, k6, k7⟩
              have hVc : VcOf ((some s, lvl) :: tr') = (some s.id : Option α) :: VcOf tr' := rfl
              have hlm : lmOf ((some s, lvl) :: tr')
                  = ((some s.id : Option α), lvl) :: lmOf tr' := rfl
              have hlb : ∀ p ∈ tr', lvl ≤ p.2 := by
                intro p hp
                rcases hrq : rest ++ children with _ | ⟨⟨q', lq'⟩, rest'⟩
                · rw [hrq] at hres
                  rcases visitAux_nil_inv _ _ _ _ _ hres with ⟨htr', _⟩
                  rw [htr'] at hp
                  cases hp
                · have hh := k7 p hp q' lq' (by rw [hrq]; rfl)
                  have hmem : (q', lq') ∈ rest ++ children := by
                    rw [hrq]
                    exact List.mem_cons_self _ _
                  rcases List.mem_append.mp hmem with hm' | hm'
                  · have hcross := hq2.1 (q', lq') hm'
                    have : lvl ≤ lq' := hcross.1
                    omega
                  · have : lq' = lvl + 1 := (hc1 _ hm').1
                    omega
              refine ⟨?_, ?_, ?_, ?_, ?_, ?_, ?_⟩
              · intro p hp
                rcases List.mem_cons.mp hp with hp' | hp'
                · rw [hp']
                  exact hOk
                · exact k1 p hp'
              · rw [hV, k2, hVc, List.reverse_cons, List.append_assoc]
                rfl
              · rw [hVc, List.nodup_cons]
                exact ⟨fun hmem => (k4 _ hmem) (List.mem_cons_self _ _), k3⟩
              · intro c hc
                rw [hVc] at hc
                rcases List.mem_cons.mp hc with hc' | hc'
                · rw [hc']
                  exact hvis
                · exact fun hcv => (k4 c hc') (List.mem_cons_of_mem _ hcv)
              · intro p hp
                rcases List.mem_cons.mp hp with hp' | hp'
                · right
                  rw [hp']
                  refine ⟨lvl, le_refl _, ?_⟩
                  rw [hlm]
                  exact List.mem_cons_self _ _
                · rcases k5 p (List.mem_append_left _ hp') with hin | ⟨l, hl, hmem⟩
                  · rcases List.mem_cons.mp hin with hc | hc
                    · right
                      refine ⟨lvl, (hq2.1 p hp').1, ?_⟩
                      rw [hlm, hc]
                      exact List.mem_cons_self _ _
                    · left
                      exact hc
                  · right
                    exact ⟨l, hl, by rw [hlm]; exact List.mem_cons_of_mem _ hmem⟩
              · intro s' l hsl t htf
                rcases List.mem_cons.mp hsl with hp' | hp'
                · have hss : s' = s ∧ l = lvl := by
                    have := Prod.ext_iff.mp hp'
                    exact ⟨Option.some.inj this.1, this.2⟩
                  rcases hss with ⟨hs1, hs2⟩
                  subst hs1
                  rcases hc2 t htf with ⟨m, hm, hmem⟩
                  have hclm := find_node_classOf g hkeys t.target m hm
                  rcases k5 (m, lvl + 1) (List.mem_append_right _ hmem) with hin | ⟨l', hl', hmem'⟩
                  · rcases List.mem_cons.mp hin with hc | hc
                    · right
                      refine ⟨lvl, by omega, ?_⟩
                      rw [hlm, ← hclm, hc]
                      exact List.mem_cons_self _ _
                    · left
                      rw [← hclm]
                      exact hc
                  · right
                    refine ⟨l', by simp at hl'; omega, ?_⟩
                    rw [hlm, ← hclm]
                    exact List.mem_cons_of_mem _ hmem'
                · rcases k6 s' l hp' t htf with hin | ⟨l', hl', hmem⟩
                  · rcases List.mem_cons.mp hin with hc | hc
                    · right
                      refine ⟨lvl, ?_, ?_⟩
                      · have := hlb (some s', l) hp'
                        omega
                      · rw [hlm, hc]
                        exact List.mem_cons_self _ _
                    · left
                      exact hc
                  · right
                    exact ⟨l', hl', by rw [hlm]; exact List.mem_cons_of_mem _ hmem⟩
              · intro p hp q lq hhd
                have hq := Option.some.inj hhd
                have hlv : lq = lvl := (Prod.ext_iff.mp hq.symm).2
                rcases List.mem_cons.mp hp with hp' | hp'
                · rw [hp', hlv]
                · rw [hlv]
                  exact hlb p hp'

theorem visit_nodes_spec (g : StateGraph α F) (rt : State α F)
    (hroot : g.root = some rt)
    (hrt : find_node g rt.id = some (some rt))
    (hkeys : ∀ p ∈ g.nodes, (p.2).id = p.1)
    (tr : List (Option (State α F) × ℕ)) (hvn : visit_nodes g = some tr) :
    (∀ p ∈ tr, EntryOk g rt p) ∧
    (VcOf tr).Nodup ∧
    (∀ oid : Option α, oid ∈ VcOf tr ↔ (oid = none ∨ oid ∈ (nodeIds g).map some)) ∧
    (∀ (oid : Option α) (d : ℕ), FaultReach g rt oid d →
      ∃ l, l ≤ d ∧ (oid, l) ∈ lmOf tr) := by
  simp only [visit_nodes, hroot] at hvn
  rcases hrun : visitAux g (bfsFuel g) [((some rt : Option (State α F)), 0)] [] with _ | ⟨tr', V⟩
  · rw [hrun] at hvn
    cases hvn
  · simp only [hrun] at hvn
    split_ifs at hvn with hcheck
    · have htr : tr = tr' := (Option.some.inj hvn).symm
      subst htr
      have hq1 : ∀ p ∈ [((some rt : Option (State α F)), 0)], EntryOk g rt p := by
        intro p hp
        rcases List.mem_cons.mp hp with hp' | hp'
        · rw [hp']
          exact ⟨FaultReach.root, hrt⟩
        · cases hp'
      have hq2 : List.Pairwise (fun (p q : Option (State α F) × ℕ) =>
          p.2 ≤ q.2 ∧ q.2 ≤ p.2 + 1) [((some rt : Option (State α F)), 0)] := by
        simp
      rcases visitAux_spec g rt hkeys (bfsFuel g) [((some rt : Option (State α F)), 0)]
        [] tr V hrun hq1 hq2 with ⟨k1, k2, k3, k4, k5, k6, k7⟩
      have hVmem : ∀ c : Option α, c ∈ V ↔ c ∈ VcOf tr := by
        intro c
        rw [k2]
        simp
      have hidsmem : ∀ c : Option α,
          c ∈ g.nodes.map (fun p => some p.1) ++ [none] ↔
            (c = none ∨ c ∈ (nodeIds g).map some) := by
        intro c
        rw [List.mem_append]
        constructor
        · rintro (h | h)
          · right
            rw [nodeIds, List.map_map]
            exact h
          · left
            simpa using h
        · rintro (h | h)
          · right
            simpa using h
          · left
            rw [nodeIds, List.map_map] at h
            exact h
      refine ⟨k1, k3, ?_, ?_⟩
      · intro oid
        rw [← hidsmem oid, ← hVmem oid]
        constructor
        · intro h
          have := List.all_eq_true.mp hcheck.1 oid h
          simpa using this
        · intro h
          have := List.all_eq_true.mp hcheck.2 oid h
          simpa using this
      · intro oid d hreach
        induction hreach with
        | root =>
          rcases k5 ((some rt : Option (State α F)), 0) (List.mem_cons_self _ _) with
            hin | ⟨l, hl, hmem⟩
          · cases hin
          · exact ⟨l, hl, hmem⟩
        | @step a s d' t hr hfind ht ihr =>
          rcases ihr with ⟨l, hld, hmem⟩
          rw [lmOf] at hmem
          rcases List.mem_map.mp hmem with ⟨p, hp, hpe⟩
          have hcls : classOf p.1 = some a := (Prod.ext_iff.mp hpe).1
          have hpl : p.2 = l := (Prod.ext_iff.mp hpe).2
          rcases hp1 : p.1 with _ | s'
          · rw [hp1] at hcls
            cases hcls
          · rw [hp1] at hcls
            have hsid : s'.id = a := Option.some.inj hcls
            have hOk := k1 p hp
            have hOk2 : EntryOk g rt (p.1, p.2) := hOk
            rw [hp1] at hOk2
            have hfn' : find_node g s'.id = some (some s') := hOk2.2
            rw [hsid] at hfn'
            have hss : s' = s := by
              have := hfn'.symm.trans hfind
              exact Option.some.inj (Option.some.inj this)
            have hvmem : ((some s : Option (State α F)), l) ∈ tr := by
              rw [← hss, ← hp1, ← hpl]
              exact hp
            rcases k6 s l hvmem t ht with hin | ⟨l', hl', hmem'⟩
            · cases hin
            · exact ⟨l', by omega, hmem'⟩

/-- Claim C5: for every graph on which it completes, `fault_level_map()`
maps each internal state id to the length of the shortest fault-only path
from the root (recovery edges ignored), maps the terminal sentinel to the
least number of fault transitions at which any terminal id is first
reached, and contains exactly the node ids plus the sentinel as keys; when
some internal node id is unreachable along fault edges the traversal fails
fatally.  Well-formedness hypotheses: the graph has a root, the root is
stored in the node map under its own id, and every node is keyed by its own
id — the invariants `add_state` maintains. -/
theorem claim_C5_fault_level_map (g : StateGraph α F) (rt : State α F)
    (hroot : g.root = some rt)
    (hrt : find_node g rt.id = some (some rt))
    (hkeys : ∀ p ∈ g.nodes, (p.2).id = p.1) :
    (∀ lm, fault_level_map g = some lm →
      (∀ oid l, alookup lm oid = some l →
        FaultReach g rt oid l ∧ ∀ d, FaultReach g rt oid d → l ≤ d) ∧
      (∀ oid : Option α, (∃ l, alookup lm oid = some l) ↔
        (oid = none ∨ ∃ a ∈ nodeIds g, oid = some a))) ∧
    (∀ a ∈ nodeIds g, (∀ d, ¬ FaultReach g rt (some a) d) →
      fault_level_map g = none) := by
  constructor
  · intro lm hlm
    rw [fault_level_map] at hlm
    rcases hvn : visit_nodes g with _ | tr
    · rw [hvn] at hlm
      cases hlm
    · rw [hvn] at hlm
      have hlm2 : lm = lmOf tr := (Option.some.inj hlm).symm
      subst hlm2
      rcases visit_nodes_spec g rt hroot hrt hkeys tr hvn with ⟨k1, k2, k3, k4⟩
      have hnodup : ((lmOf tr).map Prod.fst).Nodup := by
        rw [lmOf_keys]
        exact k2
      constructor
      · intro oid l hl
        have hmem := alookup_some_mem _ _ _ hl
        have hsound : FaultReach g rt oid l := by
          rw [lmOf] at hmem
          rcases List.mem_map.mp hmem with ⟨p, hp, hpe⟩
          have hcls : classOf p.1 = oid := (Prod.ext_iff.mp hpe).1
          have hpl : p.2 = l := (Prod.ext_iff.mp hpe).2
          have hOk : EntryOk g rt (p.1, p.2) := k1 p hp
          rcases hp1 : p.1 with _ | s'
          · rw [hp1] at hcls hOk
            rw [← hcls, ← hpl]
            exact hOk
          · rw [hp1] at hcls hOk
            rw [← hcls, ← hpl]
            show FaultReach g rt (classOf (some s')) p.2
            exact hOk.1
        refine ⟨hsound, ?_⟩
        intro d hd
        rcases k4 oid d hd with ⟨l', hl', hmem'⟩
        have := mem_alookup_of_nodup _ _ _ hnodup hmem'
        rw [this] at hl
        have := Option.some.inj hl
        omega
      · intro oid
        rw [alookup_isSome_iff, lmOf_keys, k3 oid]
        constructor
        · rintro (h | h)
          · left
            exact h
          · rcases List.mem_map.mp h with ⟨a, ha, hae⟩
            exact Or.inr ⟨a, ha, hae.symm⟩
        · rintro (h | ⟨a, ha, hae⟩)
          · left
            exact h
          · right
            rw [hae]
            exact List.mem_map_of_mem _ ha
  · intro a ha hnr
    rcases hflm : fault_level_map g with _ | lm
    · rfl
    · exfalso
      rw [fault_level_map] at hflm
      rcases hvn : visit_nodes g with _ | tr
      · rw [hvn] at hflm
        cases hflm
      · rw [hvn] at hflm
        have hlm2 : lm = lmOf tr := (Option.some.inj hflm).symm
        subst hlm2
        rcases visit_nodes_spec g rt hroot hrt hkeys tr hvn with ⟨k1, k2, k3, k4⟩
        have hkmem : (some a : Option α) ∈ VcOf tr :=
          (k3 (some a)).mpr (Or.inr (List.mem_map_of_mem _ ha))
        rw [← lmOf_keys] at hkmem
        rcases List.mem_map.mp hkmem with ⟨q, hq, hqe⟩
        rw [lmOf] at hq
        rcases List.mem_map.mp hq with ⟨p, hp, hpe⟩
        have hOk : EntryOk g rt (p.1, p.2) := k1 p hp
        have hcls : classOf p.1 = some a := by
          rw [← (Prod.ext_iff.mp hpe).1] at hqe
          exact hqe
        rcases hp1 : p.1 with _ | s'
        · rw [hp1] at hcls
          cases hcls
        · rw [hp1] at hcls hOk
          exact hnr p.2 (by rw [← hcls]; exact hOk.1)

theorem claim_C5_witness :
    ((mirroredGraph (1:ℚ) 1).root = some ⟨0, [fault 1 (2*1)], []⟩) ∧
    find_node (mirroredGraph (1:ℚ) 1) (State.id (⟨0, [fault 1 (2*1)], []⟩ : State ℕ ℚ))
      = some (some ⟨0, [fault 1 (2*1)], []⟩) ∧
    (∀ p ∈ (mirroredGraph (1:ℚ) 1).nodes, (p.2).id = p.1) ∧
    fault_level_map (mirroredGraph (1:ℚ) 1)
      = some [(some 0, 0), (some 1, 1), (none, 2)] ∧
    alookup [((some 0 : Option ℕ), 0), (some 1, 1), (none, 2)] none = some 2 ∧
    (FaultReach (mirroredGraph (1:ℚ) 1) ⟨0, [fault 1 (2*1)], []⟩ none 2 ∧
      ∀ d, FaultReach (mirroredGraph (1:ℚ) 1) ⟨0, [fault 1 (2*1)], []⟩ none d → 2 ≤ d) := by
  have hroot : (mirroredGraph (1:ℚ) 1).root = some ⟨0, [fault 1 (2*1)], []⟩ := rfl
  have hrt : find_node (mirroredGraph (1:ℚ) 1)
      (State.id (⟨0, [fault 1 (2*1)], []⟩ : State ℕ ℚ))
      = some (some ⟨0, [fault 1 (2*1)], []⟩) := rfl
  have hkeys : ∀ p ∈ (mirroredGraph (1:ℚ) 1).nodes, (p.2).id = p.1 := by decide
  have hlm : fault_level_map (mirroredGraph (1:ℚ) 1)
      = some [(some 0, 0), (some 1, 1), (none, 2)] := rfl
  have h := (claim_C5_fault_level_map (mirroredGraph (1:ℚ) 1)
    ⟨0, [fault 1 (2*1)], []⟩ hroot hrt hkeys).1 _ hlm
  exact ⟨hroot, hrt, hkeys, hlm, by decide, h.1 none 2 (by decide)⟩

theorem find_node_some_some (g : StateGraph α F)
    (hkeys : ∀ p ∈ g.nodes, (p.2).id = p.1) (x : α) (s' : State α F)
    (h : find_node g x = some (some s')) :
    s'.id = x ∧ lookupNode g x = some s' ∧ x ∉ g.term_nodes := by
  rw [find_node] at h
  split_ifs at h with ht
  · cases Option.some.inj h
  · rcases hl : lookupNode g x with _ | s''
    · rw [hl] at h
      cases h
    · rw [hl] at h
      have h2 := Option.some.inj (Option.some.inj h)
      have e1 : s'.id = x := by
        rw [← h2]
        exact hkeys _ (alookup_some_mem g.nodes x s'' hl)
      have e2 : lookupNode g x = some s' := by
        rw [← h2]
        exact hl
      exact ⟨e1, congrArg some h2, ht⟩

theorem ctCalls_cons_callI (s' : State α F) (src : State α F) (t : Transition α F)
    (evs : List (MEvent α F)) (k : α) :
    ctCalls (MEvent.call (some s') src t :: evs) k
      = ctCalls evs k + (if t.target = k then 1 else 0) := by
  rw [ctCalls, ctCalls, List.countP_cons]
  simp

theorem ctCalls_cons_callT (src : State α F) (t : Transition α F)
    (evs : List (MEvent α F)) (k : α) :
    ctCalls (MEvent.call none src t :: evs) k = ctCalls evs k := by
  rw [ctCalls, ctCalls, List.countP_cons]
  simp

theorem ctCalls_cons_pop (s : State α F) (evs : List (MEvent α F)) (k : α) :
    ctCalls (MEvent.pop s :: evs) k = ctCalls evs k := by
  rw [ctCalls, ctCalls, List.countP_cons]
  simp

theorem ctCalls_append (evs1 evs2 : List (MEvent α F)) (k : α) :
    ctCalls (evs1 ++ evs2) k = ctCalls evs1 k + ctCalls evs2 k := by
  rw [ctCalls, ctCalls, ctCalls, List.countP_append]

theorem processEdges_spec (g : StateGraph α F) (src : State α F)
    (minor : Transition α F → Option Bool)
    (hkeys : ∀ p ∈ g.nodes, (p.2).id = p.1) :
    ∀ (ts : List (Transition α F)) (deg : α → ℤ) (evsOut : List (MEvent α F))
      (deg' : α → ℤ) (enq : List (State α F)),
    processEdges g src minor ts deg = some (evsOut, deg', enq) →
    (∀ t ∈ ts, minor t ≠ none) ∧
    evsOut = (ts.filter (fun t => minor t = some false)).map
      (fun t => MEvent.call ((find_node g t.target).join) src t) ∧
    (∀ m src' t, MEvent.call m src' t ∈ evsOut → find_node g t.target = some m) ∧
    (∀ k, deg' k = deg k - (ctCalls evsOut k : ℤ)) ∧
    (∀ s' ∈ enq, find_node g s'.id = some (some s')) ∧
    (∀ s' ∈ enq, 0 < deg s'.id) ∧
    (∀ s' ∈ enq, deg' s'.id ≤ 0) ∧
    (enq.map State.id).Nodup := by
  intro ts
  induction ts with
  | nil =>
    intro deg evsOut deg' enq hrun
    have h' : some (([] : List (MEvent α F)), deg, ([] : List (State α F)))
        = some (evsOut, deg', enq) := hrun
    have h2 := Option.some.inj h'
    have he : evsOut = [] := (Prod.ext_iff.mp h2).1.symm
    have hd : deg' = deg := (Prod.ext_iff.mp (Prod.ext_iff.mp h2).2).1.symm
    have hq : enq = [] := (Prod.ext_iff.mp (Prod.ext_iff.mp h2).2).2.symm
    subst he
    subst hd
    subst hq
    refine ⟨by simp, by simp, by simp, ?_, by simp, by simp, by simp, by simp⟩
    intro k
    rw [ctCalls]
    simp
  | cons t ts ih =>
    intro deg evsOut deg' enq hrun
    rcases hmin : minor t with _ | b
    · rw [processEdges, hmin] at hrun
      cases hrun
    · rcases b with _ | _
      · -- minor t = some false : visit the transition
        rw [processEdges, hmin] at hrun
        rcases hvt : visitTransition g deg src t with _ | ⟨ev, deg1, enqh⟩
        · rw [hvt] at hrun
          cases hrun
        · simp only [hvt] at hrun
          rcases hrec : processEdges g src minor ts deg1 with _ | ⟨evs2, deg2, enqs⟩
          · rw [hrec] at hrun
            cases hrun
          · simp only [hrec] at hrun
            have h2 := Option.some.inj hrun
            have he : evsOut = ev :: evs2 := (Prod.ext_iff.mp h2).1.symm
            have hd : deg' = deg2 := (Prod.ext_iff.mp (Prod.ext_iff.mp h2).2).1.symm
            have hq : enq = enqh.toList ++ enqs := (Prod.ext_iff.mp (Prod.ext_iff.mp h2).2).2.symm
            subst he
            subst hd
            subst hq
            rcases ih deg1 evs2 deg' enqs hrec with ⟨q1, q2, q3, q4, q5, q6, q7, q8⟩
            -- analyse visitTransition
            rw [visitTransition] at hvt
            rcases hfn : find_node g t.target with _ | m
            · rw [hfn] at hvt
              cases hvt
            · rw [hfn] at hvt
              rcases m with _ | s'
              · -- terminal target: no degree change, no enqueue
                have h3 := Option.some.inj hvt
                have hev : ev = MEvent.call none src t := (Prod.ext_iff.mp h3).1.symm
                have hdg : deg1 = deg := (Prod.ext_iff.mp (Prod.ext_iff.mp h3).2).1.symm
                have hen : enqh = none := (Prod.ext_iff.mp (Prod.ext_iff.mp h3).2).2.symm
                subst hev
                subst hdg
                subst hen
                have hfil : (t :: ts).filter (fun t => minor t = some false)
                    = t :: ts.filter (fun t => minor t = some false) := by
                  rw [List.filter_cons_of_pos (by simp [hmin])]
                refine ⟨?_, ?_, ?_, ?_, ?_, ?_, ?_, ?_⟩
                · intro t' ht'
                  rcases List.mem_cons.mp ht' with h | h
                  · rw [h, hmin]
                    simp
                  · exact q1 t' h
                · rw [hfil, List.map_cons, ← q2, hfn]
                  rfl
                · intro m src' t' hm
                  rcases List.mem_cons.mp hm with h | h
                  · cases h
                    exact hfn
                  · exact q3 m src' t' h
                · intro k
                  rw [ctCalls_cons_callT, q4 k]
                · simpa using q5
                · simpa using q6
                · simpa using q7
                · simpa using q8
              · -- internal target: decrement, possibly enqueue
                have h3 := Option.some.inj hvt
                have hev : ev = MEvent.call (some s') src t := (Prod.ext_iff.mp h3).1.symm
                have hdg : deg1 = Function.update deg t.target (deg t.target - 1) :=
                  (Prod.ext_iff.mp (Prod.ext_iff.mp h3).2).1.symm
                have hen : enqh = (if deg t.target - 1 = 0 then some s' else none) :=
                  (Prod.ext_iff.mp (Prod.ext_iff.mp h3).2).2.symm
                subst hev
                have hsid := find_node_some_some g hkeys t.target s' hfn
                have hfil : (t :: ts).filter (fun t => minor t = some false)
                    = t :: ts.filter (fun t => minor t = some false) := by
                  rw [List.filter_cons_of_pos (by simp [hmin])]
                have hdmon : ∀ k, deg1 k ≤ deg k := by
                  intro k
                  rw [hdg]
                  by_cases hk : k = t.target
                  · rw [hk, Function.update_same]
                    omega
                  · rw [Function.update_noteq hk]
                have hd2mon : ∀ k, deg' k ≤ deg1 k := by
                  intro k
                  rw [q4 k]
                  omega
                refine ⟨?_, ?_, ?_, ?_, ?_, ?_, ?_, ?_⟩
                · intro t' ht'
                  rcases List.mem_cons.mp ht' with h | h
                  · rw [h, hmin]
                    simp
                  · exact q1 t' h
                · rw [hfil, List.map_cons, ← q2, hfn]
                  rfl
                · intro m src' t' hm
                  rcases List.mem_cons.mp hm with h | h
                  · cases h
                    exact hfn
                  · exact q3 m src' t' h
                · intro k
                  rw [ctCalls_cons_callI, q4 k, hdg]
                  by_cases hk : t.target = k
                  · rw [if_pos hk, ← hk, Function.update_same]
                    push_cast
                    omega
                  · rw [if_neg hk, Function.update_noteq (Ne.symm hk)]
                    omega
                · intro x hx
                  rcases List.mem_append.mp hx with h | h
                  · rw [hen] at h
                    split_ifs at h with hz
                    · have : x = s' := by simpa using h
                      rw [this, hsid.1]
                      exact hfn
                    · cases h
                  · exact q5 x h
                · intro x hx
                  rcases List.mem_append.mp hx with h | h
                  · rw [hen] at h
                    split_ifs at h with hz
                    · have hxx : x = s' := by simpa using h
                      rw [hxx, hsid.1]
                      omega
                    · cases h
                  · have := q6 x h
                    have := hdmon x.id
                    omega
                · intro x hx
                  rcases List.mem_append.mp hx with h | h
                  · rw [hen] at h
                    split_ifs at h with hz
                    · have hxx : x = s' := by simpa using h
                      have h1 : deg1 s'.id = 0 := by
                        rw [hdg, hsid.1, Function.update_same]
                        omega
                      have := hd2mon s'.id
                      rw [hxx]
                      omega
                    · cases h
                  · exact q7 x h
                · rw [hen]
                  split_ifs with hz
                  · rw [Option.toList_some, List.singleton_append, List.map_cons, List.nodup_cons]
                    refine ⟨?_, q8⟩
                    intro hmem
                    rcases List.mem_map.mp hmem with ⟨y, hy, hye⟩
                    have h6 := q6 y hy
                    have h1 : deg1 s'.id = 0 := by
                      rw [hdg, hsid.1, Function.update_same]
                      omega
                    rw [hye, hsid.1] at h6
                    rw [hsid.1] at h1
                    omega
                  · simpa using q8
      · -- minor t = some true : skip
        rw [processEdges, hmin] at hrun
        rcases ih deg evsOut deg' enq hrun with ⟨q1, q2, q3, q4, q5, q6, q7, q8⟩
        have hfil : (t :: ts).filter (fun t => minor t = some false)
            = ts.filter (fun t => minor t = some false) := by
          rw [List.filter_cons_of_neg (by simp [hmin])]
        refine ⟨?_, by rw [hfil]; exact q2, q3, q4, q5, q6, q7, q8⟩
        intro t' ht'
        rcases List.mem_cons.mp ht' with h | h
        · rw [h, hmin]
          simp
        · exact q1 t' h

theorem popsOf_append (evs1 evs2 : List (MEvent α F)) :
    popsOf (evs1 ++ evs2) = popsOf evs1 ++ popsOf evs2 := by
  rw [popsOf, popsOf, popsOf, List.filterMap_append]

theorem popsOf_map_call (ts : List (Transition α F)) (src : State α F)
    (f : Transition α F → Option (State α F)) :
    popsOf (ts.map (fun t => MEvent.call (f t) src t)) = [] := by
  induction ts with
  | nil => rfl
  | cons t ts ih =>
    rw [List.map_cons, popsOf, List.filterMap_cons]
    exact ih

theorem pop_not_mem_map_call (s : State α F) (ts : List (Transition α F))
    (src : State α F) (f : Transition α F → Option (State α F)) :
    MEvent.pop s ∉ ts.map (fun t => MEvent.call (f t) src t) := by
  intro h
  rcases List.mem_map.mp h with ⟨t, _, he⟩
  cases he

theorem split_through {X : Type} (l₁ l₂ e₁ e₂ : List X) (x : X)
    (h : l₁ ++ l₂ = e₁ ++ x :: e₂) (hx : x ∉ l₁) :
    ∃ e₁', e₁ = l₁ ++ e₁' ∧ l₂ = e₁' ++ x :: e₂ := by
  rcases List.append_eq_append_iff.mp h with ⟨a', ha1, ha2⟩ | ⟨c', hc1, hc2⟩
  · exact ⟨a', ha1, ha2⟩
  · rcases c' with _ | ⟨y, c''⟩
    · refine ⟨[], by simpa using hc1.symm, ?_⟩
      rw [List.nil_append]
      simpa using hc2.symm
    · exfalso
      have hy : y = x := by
        have := (List.cons.injEq _ _ _ _ ▸ hc2.symm)
        exact ((List.cons.injEq x e₂ y (c'' ++ l₂)).mp hc2).1.symm
      apply hx
      rw [hc1, ← hy]
      exact List.mem_append_right _ (List.mem_cons_self _ _)

theorem kahnAux_spec (g : StateGraph α F) (lm : List (Option α × ℕ))
    (hkeys : ∀ p ∈ g.nodes, (p.2).id = p.1) :
    ∀ (fuel : ℕ) (queue : List (State α F)) (deg : α → ℤ) (evs : List (MEvent α F)),
    kahnAux g lm fuel queue deg = some evs →
    (∀ s ∈ queue, find_node g s.id = some (some s)) →
    ((queue.map State.id).Nodup) →
    (∀ s ∈ queue, deg s.id ≤ 0) →
    (∀ s, MEvent.pop s ∈ evs → find_node g s.id = some (some s)) ∧
    ((popsOf evs).map State.id).Nodup ∧
    (∀ s ∈ popsOf evs, s ∈ queue ∨ 0 < deg s.id) ∧
    (evs = (popsOf evs).flatMap (fun s => MEvent.pop s :: callsFn g lm s)) ∧
    (∀ m src t, MEvent.call m src t ∈ evs → find_node g t.target = some m) ∧
    (∀ e₁ s e₂, evs = e₁ ++ MEvent.pop s :: e₂ → deg s.id ≤ (ctCalls e₁ s.id : ℤ)) := by
  intro fuel
  induction fuel with
  | zero =>
    intro queue deg evs hrun
    cases hrun
  | succ fuel ih =>
    intro queue deg evs hrun h1 h2 h3
    rcases queue with _ | ⟨n, rest⟩
    · have h' : some ([] : List (MEvent α F)) = some evs := hrun
      have he : evs = [] := (Option.some.inj h').symm
      subst he
      refine ⟨?_, ?_, ?_, ?_, ?_, ?_⟩
      · intro s hs
        cases hs
      · simp [popsOf]
      · intro s hs
        simp [popsOf] at hs
      · simp [popsOf]
      · intro m src t h
        cases h
      · intro e₁ s e₂ hsplit
        exact absurd hsplit (by simp)
    · rw [List.map_cons, List.nodup_cons] at h2
      rcases hlv : alookup lm (some n.id) with _ | lvl
      · rw [kahnAux, hlv] at hrun
        cases hrun
      · rcases hpf : processEdges g n (is_fault_minor g lm lvl) n.faults deg with
          _ | ⟨evs1, deg1, enq1⟩
        · rw [kahnAux, hlv] at hrun
          simp only [hpf] at hrun
          cases hrun
        · rw [kahnAux, hlv] at hrun
          simp only [hpf] at hrun
          rcases hpr : processEdges g n (is_recovery_minor g lm lvl) n.recovers deg1 with
            _ | ⟨evs2, deg2, enq2⟩
          · simp only [hpr] at hrun
            cases hrun
          · simp only [hpr] at hrun
            rcases hrec : kahnAux g lm fuel (rest ++ enq1 ++ enq2) deg2 with _ | evs'
            · rw [hrec] at hrun
              cases hrun
            · simp only [hrec] at hrun
              have hevs : evs = MEvent.pop n :: (evs1 ++ evs2 ++ evs') :=
                (Option.some.inj hrun).symm
              subst hevs
              rcases processEdges_spec g n (is_fault_minor g lm lvl) hkeys n.faults deg
                evs1 deg1 enq1 hpf with ⟨p1, p2, p3, p4, p5, p6, p7, p8⟩
              rcases processEdges_spec g n (is_recovery_minor g lm lvl) hkeys n.recovers deg1
                evs2 deg2 enq2 hpr with ⟨r1, r2, r3, r4, r5, r6, r7, r8⟩
              have hmon1 : ∀ k, deg1 k ≤ deg k := by
                intro k
                rw [p4 k]
                omega
              have hmon2 : ∀ k, deg2 k ≤ deg1 k := by
                intro k
                rw [r4 k]
                omega
              -- hypotheses for the recursive call
              have h1' : ∀ s ∈ rest ++ enq1 ++ enq2, find_node g s.id = some (some s) := by
                intro s hs
                rcases List.mem_append.mp hs with hs' | hs'
                · rcases List.mem_append.mp hs' with hs'' | hs''
                  · exact h1 s (List.mem_cons_of_mem _ hs'')
                  · exact p5 s hs''
                · exact r5 s hs'
              have henq1pos : ∀ s ∈ enq1, 0 < deg s.id := p6
              have henq2pos : ∀ s ∈ enq2, 0 < deg s.id := by
                intro s hs
                have := r6 s hs
                have := hmon1 s.id
                omega
              have h2' : ((rest ++ enq1 ++ enq2).map State.id).Nodup := by
                rw [List.map_append, List.map_append]
                rw [List.nodup_append]
                refine ⟨?_, ?_, ?_⟩
                · rw [List.nodup_append]
                  refine ⟨h2.2, p8, ?_⟩
                  intro a ha hb
                  rcases List.mem_map.mp ha with ⟨sa, hsa, hae⟩
                  rcases List.mem_map.mp hb with ⟨sb, hsb, hbe⟩
                  have hda := h3 sa (List.mem_cons_of_mem _ hsa)
                  have hdb := henq1pos sb hsb
                  rw [hae] at hda
                  rw [hbe] at hdb
                  omega
                · exact r8
                · intro a ha hb
                  rcases List.mem_map.mp hb with ⟨sb, hsb, hbe⟩
                  have hdb := henq2pos sb hsb
                  have hdb1 := r6 sb hsb
                  rw [hbe] at hdb hdb1
                  rcases List.mem_append.mp ha with ha' | ha'
                  · rcases List.mem_map.mp ha' with ⟨sa, hsa, hae⟩
                    have hda := h3 sa (List.mem_cons_of_mem _ hsa)
                    rw [hae] at hda
                    omega
                  · rcases List.mem_map.mp ha' with ⟨sa, hsa, hae⟩
                    have hda := p7 sa hsa
                    rw [hae] at hda
                    omega
              have h3' : ∀ s ∈ rest ++ enq1 ++ enq2, deg2 s.id ≤ 0 := by
                intro s hs
                rcases List.mem_append.mp hs with hs' | hs'
                · rcases List.mem_append.mp hs' with hs'' | hs''
                  · have := h3 s (List.mem_cons_of_mem _ hs'')
                    have := hmon1 s.id
                    have := hmon2 s.id
                    omega
                  · have := p7 s hs''
                    have := hmon2 s.id
                    omega
                · exact r7 s hs'
              rcases ih (rest ++ enq1 ++ enq2) deg2 evs' hrec h1' h2' h3' with
                ⟨k1, k2, k3, k4, k5, k6⟩
              -- evs1 and evs2 contain only call events
              have hpops1 : popsOf evs1 = [] := by
                rw [p2]
                exact popsOf_map_call _ _ _
              have hpops2 : popsOf evs2 = [] := by
                rw [r2]
                exact popsOf_map_call _ _ _
              have hpopseq : popsOf (MEvent.pop n :: (evs1 ++ evs2 ++ evs'))
                  = n :: popsOf evs' := by
                rw [popsOf, List.filterMap_cons]
                show n :: popsOf (evs1 ++ evs2 ++ evs') = n :: popsOf evs'
                rw [popsOf_append, popsOf_append, hpops1, hpops2]
                rfl
              have hd0 : deg n.id ≤ 0 := h3 n (List.mem_cons_self _ _)
              refine ⟨?_, ?_, ?_, ?_, ?_, ?_⟩
              · intro s hs
                rcases List.mem_cons.mp hs with hs' | hs'
                · have : s = n := by
                    cases hs'
                    rfl
                  rw [this]
                  exact h1 n (List.mem_cons_self _ _)
                · rcases List.mem_append.mp hs' with hs'' | hs''
                  · rcases List.mem_append.mp hs'' with h | h
                    · exact absurd h (by rw [p2]; exact pop_not_mem_map_call s _ _ _)
                    · exact absurd h (by rw [r2]; exact pop_not_mem_map_call s _ _ _)
                  · exact k1 s hs''
              · rw [hpopseq, List.map_cons, List.nodup_cons]
                refine ⟨?_, k2⟩
                intro hmem
                rcases List.mem_map.mp hmem with ⟨s, hsmem, hse⟩
                rcases k3 s hsmem with hq | hpos
                · rcases List.mem_append.mp hq with hq' | hq'
                  · rcases List.mem_append.mp hq' with hq'' | hq''
                    · exact h2.1 (by rw [← hse]; exact List.mem_map_of_mem _ hq'')
                    · have := henq1pos s hq''
                      rw [hse] at this
                      omega
                  · have := henq2pos s hq'
                    rw [hse] at this
                    omega
                · have := hmon1 s.id
                  have := hmon2 s.id
                  rw [hse] at *
                  omega
              · intro s hs
                rw [hpopseq] at hs
                rcases List.mem_cons.mp hs with hs' | hs'
                · left
                  rw [hs']
                  exact List.mem_cons_self _ _
                · rcases k3 s hs' with hq | hpos
                  · rcases List.mem_append.mp hq with hq' | hq'
                    · rcases List.mem_append.mp hq' with hq'' | hq''
                      · left
                        exact List.mem_cons_of_mem _ hq''
                      · right
                        exact henq1pos s hq''
                    · right
                      exact henq2pos s hq'
                  · right
                    have := hmon1 s.id
                    have := hmon2 s.id
                    omega
              · rw [hpopseq, List.flatMap_cons]
                have hcf : callsFn g lm n = evs1 ++ evs2 := by
                  simp only [callsFn, hlv, majorOut, List.map_append]
                  rw [← p2, ← r2]
                rw [hcf, ← k4]
                simp
              · intro m src t hmem
                rcases List.mem_cons.mp hmem with h | h
                · cases h
                · rcases List.mem_append.mp h with h' | h'
                  · rcases List.mem_append.mp h' with h'' | h''
                    · exact p3 m src t h''
                    · exact r3 m src t h''
                  · exact k5 m src t h'
              · intro e₁ s e₂ hsplit
                rcases e₁ with _ | ⟨e, e₁'⟩
                · have heq := (List.cons.injEq _ _ _ _).mp hsplit
                  have hsn : s = n := by
                    cases heq.1
                    rfl
                  rw [hsn]
                  simpa using hd0
                · rw [List.cons_append] at hsplit
                  have heq := (List.cons.injEq _ _ _ _).mp hsplit
                  have htail : evs1 ++ evs2 ++ evs' = e₁' ++ MEvent.pop s :: e₂ := heq.2
                  have hnopop : MEvent.pop s ∉ evs1 ++ evs2 := by
                    intro hmem
                    rcases List.mem_append.mp hmem with h | h
                    · exact pop_not_mem_map_call s _ _ _ (by rw [← p2]; exact h)
                    · exact pop_not_mem_map_call s _ _ _ (by rw [← r2]; exact h)
                  rcases split_through (evs1 ++ evs2) evs' e₁' e₂ _ htail hnopop with
                    ⟨e₁'', he1, he2⟩
                  have hkf := k6 e₁'' s e₂ he2
                  have hdeg2 : deg2 s.id = deg s.id
                      - (ctCalls evs1 s.id : ℤ) - (ctCalls evs2 s.id : ℤ) := by
                    rw [r4, p4]
                  have hce1 : ctCalls (e :: e₁') s.id = ctCalls e₁' s.id := by
                    rw [← heq.1, ctCalls_cons_pop]
                  have hce2 : ctCalls e₁' s.id
                      = ctCalls (evs1 ++ evs2) s.id + ctCalls e₁'' s.id := by
                    rw [he1, ctCalls_append]
                  have hca : ctCalls (evs1 ++ evs2) s.id
                      = ctCalls evs1 s.id + ctCalls evs2 s.id :=
                    ctCalls_append _ _ _
                  rw [hce1, hce2, hca]
                  push_cast
                  omega

theorem countEdges_spec (minor : Transition α F → Option Bool) :
    ∀ (ts : List (Transition α F)) (deg deg' : α → ℤ),
    countEdges minor ts deg = some deg' →
    ∀ k, deg' k = deg k
      + (((ts.filter (fun t => minor t = some false)).filter
          (fun t => t.target = k)).length : ℤ) := by
  intro ts
  induction ts with
  | nil =>
    intro deg deg' h k
    have h2 : deg = deg' := Option.some.inj h
    rw [← h2]
    simp
  | cons t ts ih =>
    intro deg deg' h k
    rcases hm : minor t with _ | b
    · rw [countEdges, hm] at h
      cases h
    · rcases b with _ | _
      · rw [countEdges, hm] at h
        have := ih _ _ h k
        rw [this]
        rw [List.filter_cons_of_pos (by simp [hm])]
        by_cases hk : t.target = k
        · rw [List.filter_cons_of_pos (by simp [hk]), List.length_cons, hk,
            Function.update_same]
          push_cast
          ring
        · rw [List.filter_cons_of_neg (by simp [hk]),
            Function.update_noteq (Ne.symm hk)]
      · rw [countEdges, hm] at h
        have := ih _ _ h k
        rw [this, List.filter_cons_of_neg (by simp [hm])]

theorem degree_counter_spec (g : StateGraph α F) (lm : List (Option α × ℕ)) :
    ∀ (tr : List (Option (State α F) × ℕ)) (deg deg' : α → ℤ),
    degree_counter g lm tr deg = some deg' →
    ∀ k, deg' k = deg k + (traceMajorCount g lm tr k : ℤ) := by
  intro tr
  induction tr with
  | nil =>
    intro deg deg' h k
    have h2 : deg = deg' := Option.some.inj h
    rw [← h2, traceMajorCount]
    simp
  | cons p tr ih =>
    intro deg deg' h k
    rcases p with ⟨n, lvl⟩
    rcases n with _ | s
    · rw [degree_counter] at h
      rw [traceMajorCount]
      exact ih _ _ h k
    · rw [degree_counter] at h
      rcases hf : countEdges (is_fault_minor g lm lvl) s.faults deg with _ | deg1
      · rw [hf] at h
        cases h
      · simp only [hf] at h
        rcases hr : countEdges (is_recovery_minor g lm lvl) s.recovers deg1 with _ | deg2
        · rw [hr] at h
          cases h
        · simp only [hr] at h
          have h1 := countEdges_spec _ _ _ _ hf k
          have h2 := countEdges_spec _ _ _ _ hr k
          have h3 := ih _ _ h k
          rw [traceMajorCount, majorOut, List.filter_append, List.length_append]
          rw [h3, h2, h1]
          push_cast
          ring

theorem ctCalls_callsFn (g : StateGraph α F) (lm : List (Option α × ℕ))
    (s : State α F) (lvl : ℕ) (k : α) (u : State α F)
    (hlv : alookup lm (some s.id) = some lvl)
    (hk : find_node g k = some (some u)) :
    ctCalls (callsFn g lm s) k
      = ((majorOut g lm lvl s).filter (fun t => t.target = k)).length := by
  rw [callsFn, hlv, ctCalls, List.countP_map, ← List.countP_eq_length_filter]
  apply List.countP_congr
  intro t ht
  simp only [Function.comp_apply]
  rcases hj : (find_node g t.target).join with _ | v
  · have hne : t.target ≠ k := by
      intro he
      rw [he, hk] at hj
      cases hj
    simp [hj, hne]
  · simp [hj]

theorem ctCalls_flatMap_calls (g : StateGraph α F) (lm : List (Option α × ℕ)) (k : α) :
    ∀ (l : List (State α F)),
    ctCalls (l.flatMap (fun s => MEvent.pop s :: callsFn g lm s)) k
      = (l.map (fun s => ctCalls (callsFn g lm s) k)).sum := by
  intro l
  induction l with
  | nil => rfl
  | cons s l ih =>
    rw [List.flatMap_cons, List.cons_append, ctCalls_cons_pop, ctCalls_append,
      List.map_cons, List.sum_cons, ih]

theorem sum_ctCalls_eq_traceMajorCount (g : StateGraph α F)
    (lm : List (Option α × ℕ)) (k : α) (u : State α F)
    (hk : find_node g k = some (some u)) :
    ∀ (tr : List (Option (State α F) × ℕ)),
    (∀ s lvl, (some s, lvl) ∈ tr → alookup lm (some s.id) = some lvl) →
    ((statesOf tr).map (fun s => ctCalls (callsFn g lm s) k)).sum
      = traceMajorCount g lm tr k := by
  intro tr
  induction tr with
  | nil =>
    intro _
    rfl
  | cons p tr ih =>
    intro hlv
    rcases p with ⟨n, lvl⟩
    rcases n with _ | s
    · rw [traceMajorCount]
      rw [show statesOf ((none, lvl) :: tr) = statesOf tr from rfl]
      exact ih (fun s l hm => hlv s l (List.mem_cons_of_mem _ hm))
    · rw [traceMajorCount]
      rw [show statesOf (((some s : Option (State α F)), lvl) :: tr) = s :: statesOf tr
        from rfl]
      rw [List.map_cons, List.sum_cons]
      rw [ih (fun s' l hm => hlv s' l (List.mem_cons_of_mem _ hm))]
      rw [ctCalls_callsFn g lm s lvl k u (hlv s lvl (List.mem_cons_self _ _)) hk]

theorem perm_of_map_id (g : StateGraph α F) (l1 l2 : List (State α F))
    (h1 : ∀ s ∈ l1, lookupNode g s.id = some s)
    (h2 : ∀ s ∈ l2, lookupNode g s.id = some s)
    (hp : List.Perm (l1.map State.id) (l2.map State.id)) : List.Perm l1 l2 := by
  have e1 : (l1.map State.id).map (nodeOfId g) = l1 := by
    rw [List.map_map]
    have : ∀ s ∈ l1, (nodeOfId g ∘ State.id) s = id s := by
      intro s hs
      show nodeOfId g s.id = s
      rw [nodeOfId, h1 s hs]
      rfl
    rw [List.map_congr_left this, List.map_id]
  have e2 : (l2.map State.id).map (nodeOfId g) = l2 := by
    rw [List.map_map]
    have : ∀ s ∈ l2, (nodeOfId g ∘ State.id) s = id s := by
      intro s hs
      show nodeOfId g s.id = s
      rw [nodeOfId, h2 s hs]
      rfl
    rw [List.map_congr_left this, List.map_id]
  have := hp.map (nodeOfId g)
  rw [e1, e2] at this
  exact this

theorem callsOf_callsFn (g : StateGraph α F) (lm : List (Option α × ℕ)) (s : State α F) :
    callsOf (callsFn g lm s) = callsFn g lm s := by
  rw [callsOf, List.filter_eq_self]
  intro e he
  rw [callsFn] at he
  rcases hlv : alookup lm (some s.id) with _ | lvl
  · rw [hlv] at he
    cases he
  · rw [hlv] at he
    rcases List.mem_map.mp he with ⟨t, _, hte⟩
    rw [← hte]

theorem callsOf_flatMap (g : StateGraph α F) (lm : List (Option α × ℕ)) :
    ∀ l : List (State α F),
    callsOf (l.flatMap (fun s => MEvent.pop s :: callsFn g lm s))
      = l.flatMap (callsFn g lm) := by
  intro l
  induction l with
  | nil => rfl
  | cons s l ih =>
    rw [List.flatMap_cons, List.cons_append, List.flatMap_cons]
    rw [callsOf, List.filter_cons_of_neg (by simp), List.filter_append]
    rw [show (callsFn g lm s).filter _ = callsOf (callsFn g lm s) from rfl]
    rw [callsOf_callsFn]
    rw [show List.filter _ (l.flatMap fun s => MEvent.pop s :: callsFn g lm s)
      = callsOf (l.flatMap fun s => MEvent.pop s :: callsFn g lm s) from rfl]
    rw [ih]

theorem popsOf_length (evs : List (MEvent α F)) :
    (popsOf evs).length = popCount evs := by
  induction evs with
  | nil => rfl
  | cons e evs ih =>
    rcases e with s | ⟨m, src, t⟩
    · rw [popsOf, List.filterMap_cons, popCount, List.countP_cons]
      show ((popsOf evs).length + 1) = popCount evs + _
      rw [ih]
      rfl
    · rw [popsOf, List.filterMap_cons, popCount, List.countP_cons]
      show (popsOf evs).length = popCount evs + _
      rw [ih]
      rfl

/-- Claim C7: on every graph where `visit_major_edges` completes,
(e) the number of dequeued nodes equals the number of internal nodes;
(b) every internal node is dequeued exactly once;
(a) the callback is invoked exactly once per major edge (the multiset of
call events is a permutation of one callback per major transition of every
internal node);
(d) terminal targets are passed to the callback as `none` and terminal ids
are never dequeued;
(c) once a node has been dequeued, no later callback targets it — all its
incoming major edges were visited before it was dequeued. -/
theorem claim_C7_major_edge_visitor (g : StateGraph α F) (rt : State α F)
    (tr : List (Option (State α F) × ℕ)) (evs : List (MEvent α F))
    (hroot : g.root = some rt)
    (hrt : find_node g rt.id = some (some rt))
    (hkeys : ∀ p ∈ g.nodes, (p.2).id = p.1)
    (hnd : (nodeIds g).Nodup)
    (hvn : visit_nodes g = some tr)
    (hvme : visit_major_edges g = some evs) :
    popCount evs = g.nodes.length ∧
    List.Perm ((popsOf evs).map State.id) (nodeIds g) ∧
    List.Perm (callsOf evs) ((g.nodes.map Prod.snd).flatMap (callsFn g (lmOf tr))) ∧
    (∀ m src t, MEvent.call m src t ∈ evs → (m = none ↔ t.target ∈ g.term_nodes)) ∧
    (∀ s, MEvent.pop s ∈ evs → s.id ∉ g.term_nodes) ∧
    (∀ e₁ s e₂, evs = e₁ ++ MEvent.pop s :: e₂ →
      ∀ m src t, MEvent.call (some m) src t ∈ e₂ → t.target ≠ s.id) := by
  -- unfold visit_major_edges
  rw [visit_major_edges, hroot, hvn] at hvme
  simp only [] at hvme
  have hlm : tr.map (fun p => (p.1.map State.id, p.2)) = lmOf tr := rfl
  rw [hlm] at hvme
  rcases hdc : degree_counter g (lmOf tr) tr (fun _ => 0) with _ | deg
  · rw [hdc] at hvme
    cases hvme
  · simp only [hdc] at hvme
    split_ifs at hvme with hdeg0
    rcases hka : kahnAux g (lmOf tr) (kahnFuel g) [rt] deg with _ | evs'
    · rw [hka] at hvme
      cases hvme
    · simp only [hka] at hvme
      split_ifs at hvme with hpc
      rw [Option.some.inj hvme] at hka hpc
      -- facts from the BFS run
      rcases visit_nodes_spec g rt hroot hrt hkeys tr hvn with ⟨b1, b2, b3, b4⟩
      -- facts from the topological run
      rcases kahnAux_spec g (lmOf tr) hkeys (kahnFuel g) [rt] deg evs hka
        (fun s hs => by
          rcases List.mem_cons.mp hs with h | h
          · rw [h]
            exact hrt
          · cases h)
        (by simp)
        (fun s hs => by
          rcases List.mem_cons.mp hs with h | h
          · rw [h, hdeg0]
          · cases h) with ⟨k1, k2, k3, k4, k5, k6⟩
      -- pops are stored nodes
      have hpopl : ∀ s ∈ popsOf evs, lookupNode g s.id = some s := by
        intro s hs
        have := k1 s (by
          rw [popsOf] at hs
          rcases List.mem_filterMap.mp hs with ⟨e, he, hse⟩
          rcases e with s' | _
          · have : s' = s := Option.some.inj hse
            rw [← this] at *
            exact he
          · cases hse)
        exact (find_node_some_some g hkeys s.id s this).2.1
      have hpopsub : (popsOf evs).map State.id ⊆ nodeIds g := by
        intro a ha
        rcases List.mem_map.mp ha with ⟨s, hs, hse⟩
        have := hpopl s hs
        rw [← hse]
        exact List.mem_map_of_mem Prod.fst (alookup_some_mem _ _ _ this)
      have hlen : ((popsOf evs).map State.id).length = (nodeIds g).length := by
        rw [List.length_map, popsOf_length, hpc, nodeIds, List.length_map]
      have hpermIds : List.Perm ((popsOf evs).map State.id) (nodeIds g) :=
        (List.subperm_of_subset k2 hpopsub).perm_of_length_le (le_of_eq hlen.symm)
      -- the trace's internal states
      have hstl : ∀ s ∈ statesOf tr, lookupNode g s.id = some s := by
        intro s hs
        rcases List.mem_filterMap.mp hs with ⟨p, hp, hps⟩
        have hOk : EntryOk g rt (p.1, p.2) := b1 p hp
        rw [hps] at hOk
        exact (find_node_some_some g hkeys s.id s hOk.2).2.1
      have hVcperm : List.Perm (VcOf tr) ((nodeIds g).map some ++ [none]) := by
        rw [List.perm_ext_iff_of_nodup b2 ?_]
        · intro oid
          rw [b3 oid, List.mem_append]
          constructor
          · rintro (h | h)
            · right
              simp [h]
            · left
              exact h
          · rintro (h | h)
            · right
              exact h
            · left
              simpa using h
        · rw [List.nodup_append]
          refine ⟨?_, by simp, ?_⟩
          · exact hnd.map (fun a b hab => Option.some.inj hab)
          · intro x hx hx'
            rcases List.mem_map.mp hx with ⟨a, _, hae⟩
            rw [← hae] at hx'
            simp at hx'
      have hstid : (statesOf tr).map State.id = (VcOf tr).filterMap (fun x => x) := by
        rw [statesOf, VcOf, List.map_filterMap, List.filterMap_map]
        congr 1
      have hstperm : List.Perm ((statesOf tr).map State.id) (nodeIds g) := by
        rw [hstid]
        have := hVcperm.filterMap (fun x => x)
        rw [List.filterMap_append] at this
        have hr : ((nodeIds g).map some).filterMap (fun x => x) ++
            ([(none : Option α)].filterMap (fun x => x)) = nodeIds g := by
          rw [List.filterMap_map]
          show (nodeIds g).filterMap some ++ [] = nodeIds g
          rw [List.filterMap_some, List.append_nil]
        rw [hr] at this
        exact this
      -- pops permute the trace's internal states
      have hpermPS : List.Perm (popsOf evs) (statesOf tr) :=
        perm_of_map_id g _ _ hpopl hstl (hpermIds.trans hstperm.symm)
      -- node values
      have hnvl : ∀ s ∈ g.nodes.map Prod.snd, lookupNode g s.id = some s := by
        intro s hs
        rcases List.mem_map.mp hs with ⟨p, hp, hpe⟩
        refine mem_alookup_of_nodup _ _ _ hnd ?_
        have hid := hkeys p hp
        rw [← hpe, hid]
        exact hp
      have hnodeIds : (g.nodes.map Prod.snd).map State.id = nodeIds g := by
        rw [List.map_map, nodeIds]
        exact List.map_congr_left (fun p hp => hkeys p hp)
      have hpermPN : List.Perm (popsOf evs) (g.nodes.map Prod.snd) :=
        perm_of_map_id g _ _ hpopl hnvl (by rw [hnodeIds]; exact hpermIds)
      have hco : callsOf evs = (popsOf evs).flatMap (callsFn g (lmOf tr)) := by
        conv_lhs => rw [k4]
        rw [callsOf_flatMap]
      have hlvs : ∀ s lvl, (some s, lvl) ∈ tr →
          alookup (lmOf tr) (some s.id) = some lvl := by
        intro s lvl hm
        refine mem_alookup_of_nodup _ _ _ ?_ ?_
        · rw [lmOf_keys]
          exact b2
        · exact List.mem_map.mpr ⟨(some s, lvl), hm, rfl⟩
      have hTot : ∀ k u, find_node g k = some (some u) →
          (ctCalls evs k : ℤ) = deg k := by
        intro k u hk
        have h1 : ctCalls evs k
            = ((popsOf evs).map (fun s => ctCalls (callsFn g (lmOf tr) s) k)).sum := by
          conv_lhs => rw [k4]
          rw [ctCalls_flatMap_calls]
        have h2 : ((popsOf evs).map (fun s => ctCalls (callsFn g (lmOf tr) s) k)).sum
            = ((statesOf tr).map (fun s => ctCalls (callsFn g (lmOf tr) s) k)).sum :=
          (hpermPS.map _).sum_eq
        have h3 := sum_ctCalls_eq_traceMajorCount g (lmOf tr) k u hk tr hlvs
        have h4 := degree_counter_spec g (lmOf tr) tr (fun _ => 0) deg hdc k
        rw [h1, h2, h3, h4]
        simp
      refine ⟨hpc, hpermIds, ?_, ?_, ?_, ?_⟩
      · rw [hco]
        exact hpermPN.flatMap_right _
      · intro m src t hm
        have hfn := k5 m src t hm
        rw [find_node] at hfn
        split_ifs at hfn with ht
        · constructor
          · intro _
            exact ht
          · intro _
            exact (Option.some.inj hfn).symm
        · rcases hl : lookupNode g t.target with _ | s'
          · rw [hl] at hfn
            cases hfn
          · rw [hl] at hfn
            constructor
            · intro hmn
              rw [hmn] at hfn
              cases Option.some.inj hfn
            · intro hterm
              exact absurd hterm ht
      · intro s hs
        exact (find_node_some_some g hkeys s.id s (k1 s hs)).2.2
      · intro e₁ s e₂ hsplit m src t hm htgt
        have hsmem : MEvent.pop s ∈ evs := by
          rw [hsplit]
          exact List.mem_append_right _ (List.mem_cons_self _ _)
        have hksid := k1 s hsmem
        have hT := hTot s.id s hksid
        have h6 := k6 e₁ s e₂ hsplit
        rw [← hT] at h6
        have hsplitC : ctCalls evs s.id = ctCalls e₁ s.id + ctCalls e₂ s.id := by
          rw [hsplit, ctCalls_append, ctCalls_cons_pop]
        have hzero : ctCalls e₂ s.id = 0 := by omega
        rw [ctCalls, List.countP_eq_zero] at hzero
        have hc := hzero _ hm
        simp only [htgt] at hc
        exact hc (by simp)

theorem claim_C7_witness :
    visit_nodes (mirroredGraph (1:ℚ) 1) = some c7tr ∧
    visit_major_edges (mirroredGraph (1:ℚ) 1) = some c7evs ∧
    popCount c7evs = (mirroredGraph (1:ℚ) 1).nodes.length ∧
    List.Perm ((popsOf c7evs).map State.id) (nodeIds (mirroredGraph (1:ℚ) 1)) := by
  have hvn : visit_nodes (mirroredGraph (1:ℚ) 1) = some c7tr := rfl
  have hvme : visit_major_edges (mirroredGraph (1:ℚ) 1) = some c7evs := rfl
  have h := claim_C7_major_edge_visitor (mirroredGraph (1:ℚ) 1) c7s0 c7tr c7evs
    rfl rfl (by decide) (by decide) hvn hvme
  exact ⟨hvn, hvme, h.1, h.2.1⟩

end FailRecover
